import Mathlib

/-!
# crypto-RSA: key derivation and per-byte encryption

A shallow embedding of `rsa/rsa.go` and of the calls `main.go` makes.

* `*big.Int` values are `Int`; a pointer that may be nil (the result of
  `rand.Prime` when its error is dropped, the result of `Exp`) is `Option Int`.
* `int64` values are `Int` in the range `[-2^63, 2^63)`; the method `Int64` of
  the library keeps the low 64 bits, read in two's complement.
* a Go `string` is its byte sequence, `List (Fin 256)`.
* the Go `int` of `bits` is 64 bits wide: `bits - 1` wraps at the least value.
* the three unbounded `for` loops take a fuel argument: the loop has not
  finished when the fuel is used up.
* `rand.Prime(rand.Reader, bits)` reads from an injected prime source indexed
  by the number of the call.
-/

namespace CryptoRSA

/-! ## The arithmetic library (`math/big`, `crypto/rand`) -/

/-- Ways in which a run does not return a value. -/
inductive Fault where
  | nilDereference
  | divisionByZero
  | outOfFuel
  | makeslice
  deriving DecidableEq, Repr

deriving instance DecidableEq for Except

/-- The prime source behind `rand.Reader`: the value call number `call` returns
when asked for `bits` bits, `none` when it gives no prime. -/
abbrev PrimeSource := Nat → Int → Option Int

/-- Reading 64 bits as a signed two's-complement number. -/
def wrap64 (u : Int) : Int := (u + 2 ^ 63) % 2 ^ 64 - 2 ^ 63

/-- The length `(bits + 7) / 8` of the byte slice that `rand.Prime` makes, in
the arithmetic of the 64-bit `int`: the sum wraps and the quotient is
truncated. -/
def sliceLen (bits : Int) : Int :=
  Int.tdiv (wrap64 (bits + 7)) 8

/-- The largest byte slice that the 64-bit runtime makes, `2^48` bytes. -/
def maxAlloc : Int := 2 ^ 48

/-- The call `rand.Prime(rand.Reader, bits)` with its error dropped
(`p, _ := ...`). For `bits < 2` the library returns an error and a nil
pointer. Otherwise the prime source is asked; when it gives no prime, the call
stops the program in `make` if the length of the byte slice is negative or
above the limit of the runtime, and returns a read error and a nil pointer if
not. A source that answers a request of such a length stands for a library
without that limit. -/
def randPrime (src : PrimeSource) (call : Nat) (bits : Int) : Except Fault (Option Int) :=
  if bits < 2 then .ok none
  else
    match src call bits with
    | some r => .ok (some r)
    | none =>
      if sliceLen bits < 0 ∨ maxAlloc < sliceLen bits then .error .makeslice else .ok none

/-- The subtraction `bits - 1` on the 64-bit `int`: it wraps at the least
value, `-2^63`, to the greatest, `2^63 - 1`, and nowhere else. -/
def bitsMinusOne (bits : Int) : Int :=
  if bits = -2 ^ 63 then 2 ^ 63 - 1 else bits - 1

/-- The method `x.Cmp(y)` on pointers: equal pointers (two nils included)
compare equal before any field is read; otherwise both are dereferenced. -/
def Cmp : Option Int → Option Int → Except Fault Int
  | none, none => .ok 0
  | some x, some y => .ok (if x < y then -1 else if x = y then 0 else 1)
  | _, _ => .error .nilDereference

/-- The method `new(big.Int).Exp(x, y, m)`. For `y >= 0` it is `x**y mod |m|`,
in `[0, |m|)`, when `m != 0`, and `x**y` when `m == 0`. For `y < 0` it is `1`
when `m == 0` and nil when `x` and `m` are not relatively prime; otherwise the
inverse of `x` modulo `|m|`, taken in `[0, |m|)`, is raised to `|y|` modulo
`|m|`, and a non-zero result `r` is replaced by `|m| - r` when `x` is negative
and `y` is odd (the sign is taken from `x`, not from the inverse). -/
def Exp (x y m : Int) : Option Int :=
  if y < 0 then
    if m = 0 then some 1
    else if Int.gcd x m = 1 then
      let r := (Int.gcdA x |m| % |m|) ^ y.natAbs % |m|
      some (if x < 0 ∧ y.natAbs % 2 = 1 ∧ r ≠ 0 then |m| - r else r)
    else none
  else if m = 0 then some (x ^ y.toNat)
  else some (x ^ y.toNat % |m|)

/-- The method `x.Int64()`: the low 64 bits of `|x|` as an `int64`, negated
when `x` is negative; this is `x` itself when `x` fits in an `int64`. -/
def Int64 (x : Int) : Int :=
  let v := wrap64 ((x.natAbs : Int) % 2 ^ 64)
  if x < 0 then wrap64 (-v) else v

/-- The conversion `byte(v)` of an `int64`: its low 8 bits. -/
def byteOf (v : Int) : Fin 256 :=
  ⟨(v % 256).toNat, by omega⟩

/-- The values an `int64` holds. -/
def isInt64 (v : Int) : Prop := -2 ^ 63 ≤ v ∧ v < 2 ^ 63

instance (v : Int) : Decidable (isInt64 v) := by
  unfold isInt64
  infer_instance

/-! ## `rsa.go` -/

/-- The struct `RSA`. -/
structure RSA where
  PublicKey : Int
  PrivateKey : Int
  N : Int
  deriving DecidableEq, Repr

/-- The constructor `NewRSA`. -/
def NewRSA (publicKey privateKey n : Int) : RSA :=
  { PublicKey := publicKey, PrivateKey := privateKey, N := n }

/-- The loop `for p.Cmp(q) == 0 { q, _ = rand.Prime(rand.Reader, bits-1) }`.
`call` is the number of the next call to the prime source; the result is the
final `q` and that counter. -/
def collisionLoop (src : PrimeSource) (bits : Int) (p : Option Int) :
    Nat → Nat → Option Int → Except Fault (Option Int × Nat)
  | 0, call, q =>
    match Cmp p q with
    | .error f => .error f
    | .ok c => if c = 0 then .error .outOfFuel else .ok (q, call)
  | fuel + 1, call, q =>
    match Cmp p q with
    | .error f => .error f
    | .ok c =>
      if c = 0 then
        match randPrime src call (bitsMinusOne bits) with
        | .error f => .error f
        | .ok q1 => collisionLoop src bits p fuel (call + 1) q1
      else .ok (q, call)

/-- The first part of `GenerateKeys`: the two calls to `rand.Prime` and the
collision loop. Returns `p`, the final `q`, and how many times `q` was
generated again. -/
def generatePrimes (src : PrimeSource) (fuel : Nat) (bits : Int) :
    Except Fault (Option Int × Option Int × Nat) :=
  match randPrime src 0 bits with
  | .error f => .error f
  | .ok p =>
    match randPrime src 1 bits with
    | .error f => .error f
    | .ok q =>
      match collisionLoop src bits p fuel 2 q with
      | .error f => .error f
      | .ok (q, call) => .ok (p, q, call - 2)

/-- The loop that generates `publicKey`: from `e`, step by one until
`gcd(e, phi) == 1`. -/
def scanPublicKey (phi : Int) : Nat → Int → Except Fault Int
  | fuel, e =>
    if Int.gcd e phi = 1 then .ok e
    else
      match fuel with
      | 0 => .error .outOfFuel
      | fuel + 1 => scanPublicKey phi fuel (e + 1)

/-- The loop that generates `privateKey`: from `d`, step by one until
`(d * publicKey) % phi == 1`. `Mod` is the Euclidean modulus and stops the
program on a zero modulus. -/
def scanPrivateKey (phi publicKey : Int) : Nat → Int → Except Fault Int
  | fuel, d =>
    if phi = 0 then .error .divisionByZero
    else if (d * publicKey) % phi = 1 then .ok d
    else
      match fuel with
      | 0 => .error .outOfFuel
      | fuel + 1 => scanPrivateKey phi publicKey fuel (d + 1)

/-- The second part of `GenerateKeys`, from `n := p * q` on: the triple
`(publicKey, privateKey, n)` derived from the primes `p` and `q`. -/
def deriveKeys (fuel : Nat) (p q : Int) : Except Fault (Int × Int × Int) :=
  let n := p * q
  let phi := (p - 1) * (q - 1)
  match scanPublicKey phi fuel 2 with
  | .error f => .error f
  | .ok publicKey =>
    match scanPrivateKey phi publicKey fuel 2 with
    | .error f => .error f
    | .ok privateKey => .ok (publicKey, privateKey, n)

/-- The function `GenerateKeys(bits)`. -/
def GenerateKeys (src : PrimeSource) (fuel : Nat) (bits : Int) :
    Except Fault (Int × Int × Int) :=
  match generatePrimes src fuel bits with
  | .error f => .error f
  | .ok (some p, some q, _) => deriveKeys fuel p q
  | .ok _ => .error .nilDereference

/-- The method `Encrypt`. -/
def RSA.Encrypt (rsa : RSA) (number : Int) : Option Int :=
  Exp number rsa.PublicKey rsa.N

/-- The method `Decrypt`. -/
def RSA.Decrypt (rsa : RSA) (number : Int) : Option Int :=
  Exp number rsa.PrivateKey rsa.N

/-- The method `EncryptMessage`: one `int64` per byte of the message; calling
`Int64` on a nil result stops the program. -/
def RSA.EncryptMessage (rsa : RSA) : List (Fin 256) → Except Fault (List Int)
  | [] => .ok []
  | b :: rest =>
    match rsa.Encrypt (b.val : Int) with
    | none => .error .nilDereference
    | some c =>
      match RSA.EncryptMessage rsa rest with
      | .error f => .error f
      | .ok cs => .ok (Int64 c :: cs)

/-- The method `DecryptMessage`: one byte per `int64` of the input. -/
def RSA.DecryptMessage (rsa : RSA) : List Int → Except Fault (List (Fin 256))
  | [] => .ok []
  | c :: rest =>
    match rsa.Decrypt c with
    | none => .error .nilDereference
    | some x =>
      match RSA.DecryptMessage rsa rest with
      | .error f => .error f
      | .ok bs => .ok (byteOf (Int64 x) :: bs)

/-- The message of `main.go`, `"Hello World!"`, as bytes. -/
def helloWorld : List (Fin 256) :=
  [72, 101, 108, 108, 111, 32, 87, 111, 114, 108, 100, 33]

/-- A prime with exactly `b` bits: what the prime source is asked for. -/
def primeOfBits (b : Int) (r : Nat) : Prop :=
  r.Prime ∧ 2 ^ (b.toNat - 1) ≤ r ∧ r < 2 ^ b.toNat

instance (b : Int) (r : Nat) : Decidable (primeOfBits b r) := by
  unfold primeOfBits
  infer_instance

/-- A prime source that answers every call with the same prime of the
requested length (3, 7, 13, 29 for 2 to 5 bits), so that the first two calls
collide. -/
def collidingSource : PrimeSource := fun _ b =>
  if b = 5 then some 29 else if b = 4 then some 13 else if b = 3 then some 7 else some 3

/-- Modular exponentiation by repeated squaring, `fuel` bounding the number of
binary digits of the exponent. -/
def powMod (m : Nat) : Nat → Nat → Nat → Nat
  | 0, _, _ => 1 % m
  | fuel + 1, b, k =>
    if k = 0 then 1 % m
    else if k % 2 = 1 then b * powMod m fuel (b * b % m) (k / 2) % m
    else powMod m fuel (b * b % m) (k / 2)

/-- A prime source that never gives a prime. -/
def emptySource : PrimeSource := fun _ _ => none

/-- A prime source whose first read fails and whose later reads return the
prime 29. -/
def readErrorSource : PrimeSource := fun call _ =>
  if call = 0 then none else some 29

/-- The modular inverse of `e` modulo `phi` as the design notes name it: the
inverse computed by the extended Euclidean algorithm, reduced to `[0, phi)`.
This is the value the linear scan for the private exponent is compared with. -/
def modularInverse (e phi : Int) : Int :=
  Int.gcdA e phi % phi

/-! ## The two key-derivation scans -/

/-- The public-key scan started at `e0` stops at the first `e1 ≥ e0` coprime
with `phi`, when the fuel covers the distance. -/
theorem scanPublicKey_found (phi : Int) (e1 : Nat) :
    ∀ (fuel e0 : Nat), e0 ≤ e1 → e1 - e0 ≤ fuel → Int.gcd (e1 : Int) phi = 1 →
      (∀ k : Nat, e0 ≤ k → k < e1 → Int.gcd (k : Int) phi ≠ 1) →
      scanPublicKey phi fuel (e0 : Int) = .ok (e1 : Int) := by
  intro fuel
  induction fuel with
  | zero =>
    intro e0 h01 hf hg _
    have : e0 = e1 := by omega
    subst this
    unfold scanPublicKey
    simp [hg]
  | succ fuel ih =>
    intro e0 h01 hf hg hmin
    rcases Nat.eq_or_lt_of_le h01 with h | h
    · subst h
      unfold scanPublicKey
      simp [hg]
    · have hne := hmin e0 le_rfl h
      unfold scanPublicKey
      simp only [hne, if_false]
      have := ih (e0 + 1) (by omega) (by omega) hg
        (fun k hk hk1 => hmin k (by omega) hk1)
      simpa using this

/-- The private-key scan started at `d0` stops at the first `d1 ≥ d0` with
`(d1 * e) % phi = 1`, when the fuel covers the distance. -/
theorem scanPrivateKey_found (phi e : Int) (hphi : phi ≠ 0) (d1 : Nat) :
    ∀ (fuel d0 : Nat), d0 ≤ d1 → d1 - d0 ≤ fuel → ((d1 : Int) * e) % phi = 1 →
      (∀ k : Nat, d0 ≤ k → k < d1 → ((k : Int) * e) % phi ≠ 1) →
      scanPrivateKey phi e fuel (d0 : Int) = .ok (d1 : Int) := by
  intro fuel
  induction fuel with
  | zero =>
    intro d0 h01 hf hg _
    have : d0 = d1 := by omega
    subst this
    unfold scanPrivateKey
    simp [hg, hphi]
  | succ fuel ih =>
    intro d0 h01 hf hg hmin
    rcases Nat.eq_or_lt_of_le h01 with h | h
    · subst h
      unfold scanPrivateKey
      simp [hg, hphi]
    · have hne := hmin d0 le_rfl h
      unfold scanPrivateKey
      simp only [hne, hphi, if_false]
      have := ih (d0 + 1) (by omega) (by omega) hg
        (fun k hk hk1 => hmin k (by omega) hk1)
      simpa using this

/-- For `phi ≥ 1` there is a smallest `e ≥ 2` coprime with `phi`, and it is at
most `phi + 1`. -/
theorem exists_least_public (phi : Nat) (hphi : 1 ≤ phi) :
    ∃ e : Nat, 2 ≤ e ∧ e ≤ phi + 1 ∧ Nat.gcd e phi = 1 ∧
      ∀ k : Nat, 2 ≤ k → k < e → Nat.gcd k phi ≠ 1 := by
  classical
  have hin : 2 ≤ phi + 1 ∧ Nat.gcd (phi + 1) phi = 1 := ⟨by omega, by simp⟩
  have hex : ∃ e : Nat, 2 ≤ e ∧ Nat.gcd e phi = 1 := ⟨phi + 1, hin⟩
  refine ⟨Nat.find hex, (Nat.find_spec hex).1, Nat.find_min' hex hin,
    (Nat.find_spec hex).2, ?_⟩
  intro k hk hlt hg
  exact Nat.find_min hex hlt ⟨hk, hg⟩

/-- For `phi ≥ 2` and `e` coprime with `phi` there is a smallest `d ≥ 2` with
`(d * e) % phi = 1`, and it is at most `phi + 1`. -/
theorem exists_least_private (phi e : Nat) (hphi : 2 ≤ phi) (he : Nat.gcd e phi = 1) :
    ∃ d : Nat, 2 ≤ d ∧ d ≤ phi + 1 ∧ (d * e) % phi = 1 ∧
      ∀ k : Nat, 2 ≤ k → k < d → (k * e) % phi ≠ 1 := by
  classical
  obtain ⟨m, hm⟩ := Nat.exists_mul_emod_eq_one_of_coprime he (by omega)
  have hin : 2 ≤ m % phi + phi ∧ ((m % phi + phi) * e) % phi = 1 := by
    refine ⟨by omega, ?_⟩
    rw [Nat.add_mul, Nat.add_mod, Nat.mul_mod_right, Nat.add_zero, Nat.mod_mod,
      Nat.mul_mod, Nat.mod_mod, ← Nat.mul_mod, Nat.mul_comm]
    exact hm
  have hex : ∃ d : Nat, 2 ≤ d ∧ (d * e) % phi = 1 := ⟨_, hin⟩
  have hd0 : 2 ≤ m % phi ∨ m % phi = 1 := by
    rcases Nat.lt_or_ge (m % phi) 2 with h | h
    · right
      have : m % phi ≠ 0 := by
        intro h0
        have : (e * m) % phi = 0 := by
          rw [Nat.mul_mod, h0, Nat.mul_zero, Nat.zero_mod]
        omega
      omega
    · exact Or.inl h
  have hbound : Nat.find hex ≤ phi + 1 := by
    rcases hd0 with h | h
    · have hlt : m % phi < phi := Nat.mod_lt _ (by omega)
      have : 2 ≤ m % phi ∧ ((m % phi) * e) % phi = 1 := by
        refine ⟨h, ?_⟩
        rw [Nat.mul_mod, Nat.mod_mod, ← Nat.mul_mod, Nat.mul_comm]
        exact hm
      have := Nat.find_min' hex this
      omega
    · have := Nat.find_min' hex hin
      omega
  refine ⟨Nat.find hex, (Nat.find_spec hex).1, hbound, (Nat.find_spec hex).2, ?_⟩
  intro k hk hlt hg
  exact Nat.find_min hex hlt ⟨hk, hg⟩

/-- The totient of a product of two distinct primes is at least 2. -/
theorem two_le_phi (p q : Nat) (hp : p.Prime) (hq : q.Prime) (hpq : p ≠ q) :
    2 ≤ (p - 1) * (q - 1) := by
  have h2p := hp.two_le
  have h2q := hq.two_le
  rcases Nat.lt_or_gt_of_ne hpq with h | h
  · calc 2 = 1 * 2 := by norm_num
      _ ≤ (p - 1) * (q - 1) := Nat.mul_le_mul (by omega) (by omega)
  · calc 2 = 2 * 1 := by norm_num
      _ ≤ (p - 1) * (q - 1) := Nat.mul_le_mul (by omega) (by omega)

/-- What `deriveKeys` returns, given enough fuel: the modulus `p * q`, the
smallest `e ≥ 2` coprime with `phi` and the smallest `d ≥ 2` with
`(d * e) % phi = 1`, both at most `phi + 1`. -/
theorem deriveKeys_spec (p q : Nat) (hp : 1 ≤ p) (hq : 1 ≤ q)
    (hphi : 2 ≤ (p - 1) * (q - 1)) (fuel : Nat) (hfuel : (p - 1) * (q - 1) ≤ fuel) :
    ∃ e d : Nat, deriveKeys fuel (p : Int) (q : Int) = .ok ((e : Int), (d : Int), (p : Int) * q) ∧
      (2 ≤ e ∧ e ≤ (p - 1) * (q - 1) + 1 ∧ Nat.gcd e ((p - 1) * (q - 1)) = 1 ∧
        ∀ k : Nat, 2 ≤ k → k < e → Nat.gcd k ((p - 1) * (q - 1)) ≠ 1) ∧
      (2 ≤ d ∧ d ≤ (p - 1) * (q - 1) + 1 ∧ (d * e) % ((p - 1) * (q - 1)) = 1 ∧
        ∀ k : Nat, 2 ≤ k → k < d → (k * e) % ((p - 1) * (q - 1)) ≠ 1) := by
  obtain ⟨e, he2, hele, heg, hemin⟩ := exists_least_public ((p - 1) * (q - 1)) (by omega)
  obtain ⟨d, hd2, hdle, hdm, hdmin⟩ := exists_least_private ((p - 1) * (q - 1)) e hphi heg
  refine ⟨e, d, ?_, ⟨he2, hele, heg, hemin⟩, ⟨hd2, hdle, hdm, hdmin⟩⟩
  have hcast : ((p : Int) - 1) * ((q : Int) - 1) = (((p - 1) * (q - 1) : Nat) : Int) := by
    push_cast [Nat.cast_sub hp, Nat.cast_sub hq]
    ring
  have hne : ((((p - 1) * (q - 1) : Nat)) : Int) ≠ 0 := by
    have : (p - 1) * (q - 1) ≠ 0 := by omega
    exact_mod_cast this
  have h1 : scanPublicKey (((p - 1) * (q - 1) : Nat) : Int) fuel ((2 : Nat) : Int) = .ok (e : Int) := by
    apply scanPublicKey_found _ e fuel 2 he2 (by omega)
    · rw [Int.gcd_natCast_natCast]; exact heg
    · intro k hk hlt
      rw [Int.gcd_natCast_natCast]
      exact hemin k hk hlt
  have h2 : scanPrivateKey (((p - 1) * (q - 1) : Nat) : Int) (e : Int) fuel ((2 : Nat) : Int)
      = .ok (d : Int) := by
    apply scanPrivateKey_found _ _ hne d fuel 2 hd2 (by omega)
    · exact_mod_cast hdm
    · intro k hk hlt
      have := hdmin k hk hlt
      exact_mod_cast this
  unfold deriveKeys
  simp only [hcast]
  simp only [Nat.cast_ofNat] at h1 h2
  rw [h1]
  simp only
  rw [h2]

/-! ## Modular exponentiation and the round trip -/

/-- With a non-negative exponent and a positive modulus `Exp` is the Euclidean
remainder of the power. -/
theorem Exp_eq (x y m : Int) (hy : 0 ≤ y) (hm : 0 < m) :
    Exp x y m = some (x ^ y.toNat % m) := by
  unfold Exp
  rw [if_neg (not_lt.mpr hy), if_neg (ne_of_gt hm), abs_of_pos hm]

/-- Fermat: for a prime `p` and an exponent one above a multiple of `p - 1`,
raising to it is the identity modulo `p`. -/
theorem pow_modEq_self (p : Nat) (hp : p.Prime) (t x : Nat) :
    x ^ (1 + (p - 1) * t) ≡ x [MOD p] := by
  haveI : Fact p.Prime := ⟨hp⟩
  rw [← ZMod.eq_iff_modEq_nat]
  push_cast
  by_cases hx : (x : ZMod p) = 0
  · rw [hx]
    simp
  · rw [pow_add, pow_mul, ZMod.pow_card_sub_one_eq_one hx]
    simp

/-- The arithmetic core of textbook RSA: for distinct primes `p`, `q` and
exponents with `(d * e) % ((p - 1) * (q - 1)) = 1`, raising to `e` and then to
`d` is the identity modulo `p * q`, for every base. -/
theorem pow_pow_mod (p q e d : Nat) (hp : p.Prime) (hq : q.Prime) (hpq : p ≠ q)
    (hed : (d * e) % ((p - 1) * (q - 1)) = 1) (x : Nat) :
    (x ^ e % (p * q)) ^ d % (p * q) = x % (p * q) := by
  have hk : d * e = 1 + (p - 1) * (q - 1) * (d * e / ((p - 1) * (q - 1))) := by
    have := Nat.div_add_mod (d * e) ((p - 1) * (q - 1))
    rw [hed] at this
    omega
  have h1 : x ^ (e * d) ≡ x [MOD p] := by
    rw [Nat.mul_comm e d, hk, Nat.mul_assoc]
    exact pow_modEq_self p hp _ x
  have h2 : x ^ (e * d) ≡ x [MOD q] := by
    rw [Nat.mul_comm e d, hk, Nat.mul_comm (p - 1) (q - 1), Nat.mul_assoc]
    exact pow_modEq_self q hq _ x
  have hcop : Nat.Coprime p q := (Nat.coprime_primes hp hq).2 hpq
  have h3 : x ^ (e * d) ≡ x [MOD p * q] :=
    (Nat.modEq_and_modEq_iff_modEq_mul hcop).1 ⟨h1, h2⟩
  rw [← Nat.pow_mod, ← pow_mul]
  exact h3

/-- The integer round trip for natural exponents and modulus: `Decrypt` after
`Encrypt` returns every `x` in `[0, p * q)`. -/
theorem decrypt_encrypt (p q e d : Nat) (hp : p.Prime) (hq : q.Prime) (hpq : p ≠ q)
    (hed : (d * e) % ((p - 1) * (q - 1)) = 1) (x : Int) (h0 : 0 ≤ x)
    (hx : x < (p : Int) * q) :
    ((NewRSA e d ((p : Int) * q)).Encrypt x).bind (NewRSA e d ((p : Int) * q)).Decrypt
      = some x := by
  have hn : (0 : Int) < (p : Int) * q := lt_of_le_of_lt h0 hx
  obtain ⟨x', rfl⟩ := Int.eq_ofNat_of_zero_le h0
  simp only [RSA.Encrypt, RSA.Decrypt, NewRSA]
  rw [Exp_eq _ _ _ (Int.natCast_nonneg e) hn, Option.some_bind,
    Exp_eq _ _ _ (Int.natCast_nonneg d) hn]
  simp only [Int.toNat_ofNat]
  have h := pow_pow_mod p q e d hp hq hpq hed x'
  have hlt : x' < p * q := by exact_mod_cast hx
  rw [Nat.mod_eq_of_lt hlt] at h
  congr 1
  exact_mod_cast h

/-! ## Conversions between `big.Int`, `int64` and `byte` -/

/-- On a non-negative value that fits, `Int64` is the identity. -/
theorem Int64_of_lt (x : Int) (h0 : 0 ≤ x) (hx : x < 2 ^ 63) : Int64 x = x := by
  unfold Int64 wrap64
  rw [if_neg (not_lt.mpr h0), Int.natAbs_of_nonneg h0]
  norm_num at hx ⊢
  omega

/-- On a non-negative value `Int64` keeps the low 8 bits. -/
theorem Int64_emod_256 (x : Int) (h0 : 0 ≤ x) : Int64 x % 256 = x % 256 := by
  unfold Int64 wrap64
  rw [if_neg (not_lt.mpr h0), Int.natAbs_of_nonneg h0]
  norm_num
  omega

/-- The result of `Int64` is an `int64`. -/
theorem isInt64_Int64 (x : Int) : isInt64 (Int64 x) := by
  unfold isInt64 Int64 wrap64
  norm_num
  split <;> omega

/-- A byte widened to an integer and narrowed again is unchanged. -/
theorem byteOf_val (b : Fin 256) : byteOf (b.val : Int) = b := by
  apply Fin.ext
  have := b.isLt
  simp only [byteOf]
  omega

/-! ## The message operations, element by element -/

/-- With a non-negative public exponent and a positive modulus,
`EncryptMessage` returns, byte by byte, `Int64` of the power residue. -/
theorem EncryptMessage_eq (rsa : RSA) (he : 0 ≤ rsa.PublicKey) (hn : 0 < rsa.N)
    (m : List (Fin 256)) :
    rsa.EncryptMessage m
      = .ok (m.map (fun b => Int64 ((b.val : Int) ^ rsa.PublicKey.toNat % rsa.N))) := by
  induction m with
  | nil => rfl
  | cons b rest ih =>
    simp only [RSA.EncryptMessage, RSA.Encrypt, Exp_eq _ _ _ he hn, ih, List.map_cons]

/-- With a non-negative private exponent and a positive modulus,
`DecryptMessage` returns, element by element, the low byte of the power
residue. -/
theorem DecryptMessage_eq (rsa : RSA) (hd : 0 ≤ rsa.PrivateKey) (hn : 0 < rsa.N)
    (c : List Int) :
    rsa.DecryptMessage c
      = .ok (c.map (fun v => byteOf (Int64 (v ^ rsa.PrivateKey.toNat % rsa.N)))) := by
  induction c with
  | nil => rfl
  | cons v rest ih =>
    simp only [RSA.DecryptMessage, RSA.Decrypt, Exp_eq _ _ _ hd hn, ih, List.map_cons]

/-- The message round trip under its precondition: for distinct primes `p`,
`q` with `p * q ≤ 2^63`, exponents with `(d * e) % phi = 1`, and a message whose
bytes are all below `p * q`, `EncryptMessage` returns integers in `[0, p * q)`,
one per byte, and `DecryptMessage` returns the message from them. -/
theorem message_round_trip (p q e d : Nat) (hp : p.Prime) (hq : q.Prime) (hpq : p ≠ q)
    (hed : (d * e) % ((p - 1) * (q - 1)) = 1) (hn : (p : Int) * q ≤ 2 ^ 63)
    (m : List (Fin 256)) (hm : ∀ b ∈ m, (b.val : Int) < (p : Int) * q) :
    ∃ cs : List Int, (NewRSA e d ((p : Int) * q)).EncryptMessage m = .ok cs ∧
      cs.length = m.length ∧ (∀ c ∈ cs, 0 ≤ c ∧ c < (p : Int) * q) ∧
      (NewRSA e d ((p : Int) * q)).DecryptMessage cs = .ok m := by
  have hpos : (0 : Int) < (p : Int) * q := by
    have := hp.pos
    have := hq.pos
    positivity
  induction m with
  | nil => exact ⟨[], rfl, rfl, by simp, rfl⟩
  | cons b rest ih =>
    obtain ⟨cs, hcs, hlen, hrange, hdec⟩ := ih (fun b hb => hm b (List.mem_cons_of_mem _ hb))
    have hb := hm b (List.mem_cons_self _ _)
    have hrt := decrypt_encrypt p q e d hp hq hpq hed (b.val : Int) (Int.natCast_nonneg _) hb
    have henc : (NewRSA e d ((p : Int) * q)).Encrypt (b.val : Int)
        = some ((b.val : Int) ^ e % ((p : Int) * q)) := by
      simp [RSA.Encrypt, NewRSA, Exp_eq _ _ _ (Int.natCast_nonneg e) hpos]
    have hc0 : 0 ≤ (b.val : Int) ^ e % ((p : Int) * q) := Int.emod_nonneg _ (ne_of_gt hpos)
    have hc1 : (b.val : Int) ^ e % ((p : Int) * q) < (p : Int) * q := Int.emod_lt_of_pos _ hpos
    have h64 := Int64_of_lt _ hc0 (lt_of_lt_of_le hc1 hn)
    rw [henc, Option.some_bind] at hrt
    refine ⟨(b.val : Int) ^ e % ((p : Int) * q) :: cs, ?_, by simp [hlen], ?_, ?_⟩
    · simp only [RSA.EncryptMessage, henc, hcs, h64]
    · intro c hc
      rcases List.mem_cons.1 hc with h | h
      · subst h; exact ⟨hc0, hc1⟩
      · exact hrange c h
    · have hb63 : ((b.val : Nat) : Int) < 2 ^ 63 := by
        have := b.isLt
        norm_num
        omega
      simp only [RSA.DecryptMessage, hrt, hdec,
        Int64_of_lt _ (Int.natCast_nonneg _) hb63, byteOf_val]

/-! ## The collision loop -/

/-- The collision loop returns at once when `p` and `q` differ. -/
theorem collisionLoop_ne (src : PrimeSource) (bits p q : Int) (h : p ≠ q) (fuel call : Nat) :
    collisionLoop src bits (some p) fuel call (some q) = .ok (some q, call) := by
  have hc : ∃ c : Int, Cmp (some p) (some q) = .ok c ∧ c ≠ 0 := by
    simp only [Cmp]
    split_ifs
    · exact ⟨-1, rfl, by decide⟩
    · exact ⟨1, rfl, by decide⟩
  obtain ⟨c, hc, hc0⟩ := hc
  cases fuel <;> simp only [collisionLoop, hc, if_neg hc0]

/-- Below 2 bits `rand.Prime` returns an error and a nil pointer. -/
theorem randPrime_low (src : PrimeSource) (call : Nat) (bits : Int) (h : bits < 2) :
    randPrime src call bits = .ok none := by
  simp only [randPrime]
  rw [if_pos h]

/-- From 2 bits on `rand.Prime` returns the prime that the source gives. -/
theorem randPrime_some (src : PrimeSource) (call : Nat) (bits r : Int) (h : 2 ≤ bits)
    (hr : src call bits = some r) : randPrime src call bits = .ok (some r) := by
  simp only [randPrime, hr]
  rw [if_neg (by omega)]

/-- Above the least `int` the subtraction `bits - 1` does not wrap. -/
theorem bitsMinusOne_eq (bits : Int) (h : -2 ^ 63 < bits) : bitsMinusOne bits = bits - 1 := by
  unfold bitsMinusOne
  rw [if_neg (ne_of_gt h)]

/-- On the values of the 64-bit `int`, `bitsMinusOne` is the wrapped
subtraction. -/
theorem bitsMinusOne_eq_wrap64 (bits : Int) (h : isInt64 bits) :
    bitsMinusOne bits = wrap64 (bits - 1) := by
  unfold isInt64 at h
  unfold bitsMinusOne wrap64
  norm_num at h ⊢
  split_ifs <;> omega

/-- The collision loop generates `q` again, with one bit less, when `p` and `q`
are equal. -/
theorem collisionLoop_eq (src : PrimeSource) (bits p : Int) (fuel call : Nat)
    (q1 : Option Int) (h : randPrime src call (bitsMinusOne bits) = .ok q1) :
    collisionLoop src bits (some p) (fuel + 1) call (some p)
      = collisionLoop src bits (some p) fuel (call + 1) q1 := by
  rw [collisionLoop]
  simp [Cmp, h]

/-- Once the collision loop has ended with primes `p` and `q`, `GenerateKeys`
is `deriveKeys` on them. -/
theorem GenerateKeys_eq_deriveKeys (src : PrimeSource) (fuel : Nat) (bits p q : Int)
    (regen : Nat) (h : generatePrimes src fuel bits = .ok (some p, some q, regen)) :
    GenerateKeys src fuel bits = deriveKeys fuel p q := by
  simp only [GenerateKeys, h]

/-- What `generatePrimes` returns when the prime source answers each request
for `b` bits, `2 ≤ b ≤ bits`, with a prime of exactly `b` bits, and
`bits ≥ 3`: two different primes, `q` generated again at most once. -/
theorem generatePrimes_spec (src : PrimeSource) (bits : Int) (hbits : 3 ≤ bits)
    (hsrc : ∀ (call : Nat) (b : Int), 2 ≤ b → b ≤ bits →
      ∃ r : Nat, src call b = some (r : Int) ∧ primeOfBits b r)
    (fuel : Nat) (hfuel : 1 ≤ fuel) :
    ∃ p q regen : Nat,
      generatePrimes src fuel bits = .ok (some (p : Int), some (q : Int), regen) ∧
      regen ≤ 1 ∧ p ≠ q ∧ primeOfBits bits p ∧
      (regen = 0 → primeOfBits bits q) ∧ (regen = 1 → primeOfBits (bits - 1) q) := by
  obtain ⟨p, hp, hpb⟩ := hsrc 0 bits (by omega) le_rfl
  obtain ⟨q, hq, hqb⟩ := hsrc 1 bits (by omega) le_rfl
  obtain ⟨q2, hq2, hq2b⟩ := hsrc 2 (bits - 1) (by omega) (by omega)
  have hr0 : randPrime src 0 bits = .ok (some (p : Int)) :=
    randPrime_some _ _ _ _ (by omega) hp
  have hr1 : randPrime src 1 bits = .ok (some (q : Int)) :=
    randPrime_some _ _ _ _ (by omega) hq
  have hr2 : randPrime src 2 (bitsMinusOne bits) = .ok (some (q2 : Int)) := by
    rw [bitsMinusOne_eq bits (by norm_num; omega)]
    exact randPrime_some _ _ _ _ (by omega) hq2
  by_cases hpq : p = q
  · subst hpq
    have hne : p ≠ q2 := by
      have h1 := hq2b.2.2
      have h2 := hpb.2.1
      have : (bits - 1).toNat = bits.toNat - 1 := by omega
      rw [this] at h1
      omega
    have hneI : (p : Int) ≠ (q2 : Int) := by exact_mod_cast hne
    obtain ⟨f, rfl⟩ : ∃ f, fuel = f + 1 := ⟨fuel - 1, by omega⟩
    refine ⟨p, q2, 1, ?_, le_rfl, hne, hpb, by omega, fun _ => hq2b⟩
    simp only [generatePrimes, hr0, hr1]
    rw [collisionLoop_eq _ _ _ _ _ _ hr2, collisionLoop_ne _ _ _ _ hneI]
  · have hneI : (p : Int) ≠ (q : Int) := by exact_mod_cast hpq
    refine ⟨p, q, 0, ?_, by omega, hpq, hpb, fun _ => hqb, by omega⟩
    simp only [generatePrimes, hr0, hr1]
    rw [collisionLoop_ne _ _ _ _ hneI]

/-! ## A 33-bit key pair whose modulus does not fit in an `int64` -/

/-- Repeated squaring computes the power residue. -/
theorem powMod_eq (m : Nat) : ∀ (fuel b k : Nat), k < 2 ^ fuel →
    powMod m fuel b k = b ^ k % m := by
  intro fuel
  induction fuel with
  | zero =>
    intro b k hk
    have : k = 0 := by simpa using hk
    subst this
    simp [powMod]
  | succ fuel ih =>
    intro b k hk
    unfold powMod
    by_cases h0 : k = 0
    · subst h0; simp
    · rw [if_neg h0]
      have hk2 : k / 2 < 2 ^ fuel := by
        rw [pow_succ] at hk
        omega
      rw [ih _ _ hk2, ← Nat.pow_mod, ← pow_two, ← pow_mul]
      by_cases h1 : k % 2 = 1
      · rw [if_pos h1, Nat.mul_mod_mod, ← pow_succ']
        congr 2
        omega
      · rw [if_neg h1]
        congr 2
        omega

/-- Powers in `ZMod n` through repeated squaring. -/
theorem zmod_pow_eq (n a k fuel : Nat) (hk : k < 2 ^ fuel) :
    (a : ZMod n) ^ k = ((powMod n fuel a k : Nat) : ZMod n) := by
  rw [powMod_eq _ _ _ _ hk, ZMod.natCast_mod]
  push_cast
  rfl

/-- A residue other than 1 is not 1 in `ZMod n`. -/
theorem zmod_natCast_ne_one (n v : Nat) (h : v % n ≠ 1 % n) : (v : ZMod n) ≠ 1 := by
  intro hv
  apply h
  rw [← ZMod.natCast_eq_natCast_iff']
  simpa using hv

/-- The 33-bit number 6456577121 is prime (Lucas test with base 6;
`6456577120 = 2^5 * 5 * 7^9`). -/
theorem prime_6456577121 : Nat.Prime 6456577121 := by
  refine lucas_primality _ ((6 : Nat) : ZMod 6456577121) ?_ ?_
  · rw [zmod_pow_eq _ _ _ 40 (by norm_num)]
    have : powMod 6456577121 40 6 (6456577121 - 1) = 1 := by decide
    rw [this]
    simp
  · intro r hr hdvd
    have hfac : 6456577121 - 1 = 2 ^ 5 * 5 * 7 ^ 9 := by norm_num
    have hr' : r = 2 ∨ r = 5 ∨ r = 7 := by
      rw [hfac] at hdvd
      rcases (Nat.Prime.dvd_mul hr).1 hdvd with h | h
      · rcases (Nat.Prime.dvd_mul hr).1 h with h | h
        · exact Or.inl ((Nat.prime_dvd_prime_iff_eq hr Nat.prime_two).1 (hr.dvd_of_dvd_pow h))
        · exact Or.inr (Or.inl ((Nat.prime_dvd_prime_iff_eq hr (by norm_num)).1 h))
      · exact Or.inr (Or.inr
          ((Nat.prime_dvd_prime_iff_eq hr (by norm_num)).1 (hr.dvd_of_dvd_pow h)))
    rcases hr' with h | h | h <;> subst h <;>
      rw [zmod_pow_eq _ _ _ 40 (by norm_num)] <;>
      exact zmod_natCast_ne_one _ _ (by decide)

/-- The 33-bit number 6879707137 is prime (Lucas test with base 5;
`6879707136 = 2^20 * 3^8`). -/
theorem prime_6879707137 : Nat.Prime 6879707137 := by
  refine lucas_primality _ ((5 : Nat) : ZMod 6879707137) ?_ ?_
  · rw [zmod_pow_eq _ _ _ 40 (by norm_num)]
    have : powMod 6879707137 40 5 (6879707137 - 1) = 1 := by decide
    rw [this]
    simp
  · intro r hr hdvd
    have hfac : 6879707137 - 1 = 2 ^ 20 * 3 ^ 8 := by norm_num
    have hr' : r = 2 ∨ r = 3 := by
      rw [hfac] at hdvd
      rcases (Nat.Prime.dvd_mul hr).1 hdvd with h | h
      · exact Or.inl ((Nat.prime_dvd_prime_iff_eq hr Nat.prime_two).1 (hr.dvd_of_dvd_pow h))
      · exact Or.inr ((Nat.prime_dvd_prime_iff_eq hr (by norm_num)).1 (hr.dvd_of_dvd_pow h))
    rcases hr' with h | h <;> subst h <;>
      rw [zmod_pow_eq _ _ _ 40 (by norm_num)] <;>
      exact zmod_natCast_ne_one _ _ (by decide)



/-- The key of the primes 6456577121 and 6879707137: `phi` is a multiple of 210,
so the public-key scan passes 2 to 10 and stops at 11; the private exponent is
the inverse of 11 modulo `phi`. -/
theorem deriveKeys_33bit (fuel : Nat) (hfuel : 44419359686598328320 ≤ fuel) :
    deriveKeys fuel 6456577121 6879707137
      = .ok (11, 24228741647235451811, 44419359699934612577) := by
  have hphi : (6456577121 - 1) * (6879707137 - 1) = 44419359686598328320 := by norm_num
  obtain ⟨e, d, hk, ⟨he2, -, heg, hemin⟩, ⟨hd2, -, hdm, hdmin⟩⟩ :=
    deriveKeys_spec 6456577121 6879707137 (by norm_num) (by norm_num)
      (by rw [hphi]; norm_num) fuel (by rw [hphi]; exact hfuel)
  rw [hphi] at heg hemin hdm hdmin
  have he : e = 11 := by
    have hle : e ≤ 11 := by
      by_contra h
      exact hemin 11 (by norm_num) (Nat.lt_of_not_le h) (by decide)
    clear hdm hdmin hk hemin
    interval_cases e <;> first | rfl | (exfalso; revert heg; decide)
  subst he
  have hd : d = 24228741647235451811 := by
    have hle : d ≤ 24228741647235451811 := by
      by_contra h
      exact hdmin 24228741647235451811 (by norm_num) (Nat.lt_of_not_le h) (by decide)
    have hmod : d * 11 ≡ 24228741647235451811 * 11 [MOD 44419359686598328320] :=
      hdm.trans (by decide)
    have hcop : Nat.gcd 44419359686598328320 11 = 1 := by decide
    have h2 : d % 44419359686598328320 = 24228741647235451811 % 44419359686598328320 :=
      Nat.ModEq.cancel_right_of_coprime hcop hmod
    have hlt : (24228741647235451811 : Nat) < 44419359686598328320 := by norm_num
    rw [Nat.mod_eq_of_lt (lt_of_le_of_lt hle hlt), Nat.mod_eq_of_lt hlt] at h2
    exact h2
  subst hd
  simp only [Nat.cast_ofNat] at hk
  rw [hk]
  norm_num



/-- The method `Decrypt` with natural exponent and modulus, computed by repeated
squaring on the residue of the input. -/
theorem Decrypt_eq_powMod (e : Int) (d n : Nat) (hn : 0 < n) (fuel : Nat) (hk : d < 2 ^ fuel)
    (v : Int) :
    (NewRSA e (d : Int) (n : Int)).Decrypt v
      = some ((powMod n fuel (v % (n : Int)).toNat d : Nat) : Int) := by
  have hnI : (0 : Int) < (n : Int) := by exact_mod_cast hn
  have h0 : 0 ≤ v % (n : Int) := Int.emod_nonneg _ (ne_of_gt hnI)
  simp only [RSA.Decrypt, NewRSA]
  rw [Exp_eq _ _ _ (Int.natCast_nonneg d) hnI, Int.toNat_ofNat, powMod_eq _ _ _ _ hk]
  congr 1
  have h1 : v ^ d % (n : Int) = (v % (n : Int)) ^ d % (n : Int) :=
    ((Int.mod_modEq v n).pow d).symm
  rw [h1]
  conv_lhs => rw [← Int.toNat_of_nonneg h0]
  norm_cast

/-- With the 33-bit key the byte 53 is stored as a negative `int64` and comes
back as the byte 233. -/
theorem wrapped_53 :
    (NewRSA 11 24228741647235451811 44419359699934612577).EncryptMessage [53]
        = .ok [-9177708144337360019] ∧
      (NewRSA 11 24228741647235451811 44419359699934612577).DecryptMessage
        [-9177708144337360019] = .ok [233] := by
  constructor
  · decide
  · have h := Decrypt_eq_powMod 11 24228741647235451811 44419359699934612577 (by norm_num)
      70 (by norm_num) (-9177708144337360019)
    simp only [Nat.cast_ofNat] at h
    simp only [RSA.DecryptMessage, h]
    decide

/-- With the 33-bit key the byte 65 is stored as the low 64 bits of its
ciphertext and comes back as the byte 198. -/
theorem wrapped_65 :
    (NewRSA 11 24228741647235451811 44419359699934612577).EncryptMessage [65]
        = .ok [6194983892734174816] ∧
      (NewRSA 11 24228741647235451811 44419359699934612577).DecryptMessage
        [6194983892734174816] = .ok [198] := by
  constructor
  · decide
  · have h := Decrypt_eq_powMod 11 24228741647235451811 44419359699934612577 (by norm_num)
      70 (by norm_num) 6194983892734174816
    simp only [Nat.cast_ofNat] at h
    simp only [RSA.DecryptMessage, h]
    decide

/-! ## Key derivation and the integer round trip (C1, C3, C4) -/

/-- C1. Integer round trip: for distinct primes `p`, `q` and enough fuel for the
two scans, `deriveKeys` returns a triple `(e, d, p * q)`, and for every integer
`x` with `0 ≤ x < p * q` (coprime with the modulus or not) `Decrypt` of
`Encrypt x` is `x`, that is `(x ^ e mod n) ^ d mod n = x`. -/
theorem integer_round_trip (p q : Nat) (hp : p.Prime) (hq : q.Prime) (hpq : p ≠ q)
    (fuel : Nat) (hfuel : (p - 1) * (q - 1) ≤ fuel) :
    ∃ e d : Int, deriveKeys fuel (p : Int) (q : Int) = .ok (e, d, (p : Int) * q) ∧
      ∀ x : Int, 0 ≤ x → x < (p : Int) * q →
        ((NewRSA e d ((p : Int) * q)).Encrypt x).bind (NewRSA e d ((p : Int) * q)).Decrypt
            = some x ∧
          (x ^ e.toNat % ((p : Int) * q)) ^ d.toNat % ((p : Int) * q) = x := by
  obtain ⟨e, d, hk, -, -, -, hed, -⟩ :=
    deriveKeys_spec p q hp.one_le hq.one_le (two_le_phi p q hp hq hpq) fuel hfuel
  refine ⟨e, d, hk, fun x h0 hx => ?_⟩
  have hrt := decrypt_encrypt p q e d hp hq hpq hed x h0 hx
  refine ⟨hrt, ?_⟩
  have hn : (0 : Int) < (p : Int) * q := lt_of_le_of_lt h0 hx
  simp only [RSA.Encrypt, RSA.Decrypt, NewRSA] at hrt
  rw [Exp_eq _ _ _ (Int.natCast_nonneg e) hn, Option.some_bind,
    Exp_eq _ _ _ (Int.natCast_nonneg d) hn] at hrt
  exact Option.some.inj hrt

/-- C1 at `p = 3`, `q = 5`, fuel 8: the key is `(3, 3, 15)`. -/
theorem integer_round_trip_witness :
    ∃ e d : Int, deriveKeys 8 ((3 : Nat) : Int) ((5 : Nat) : Int)
        = .ok (e, d, ((3 : Nat) : Int) * (5 : Nat)) ∧
      ∀ x : Int, 0 ≤ x → x < ((3 : Nat) : Int) * (5 : Nat) →
        ((NewRSA e d (((3 : Nat) : Int) * (5 : Nat))).Encrypt x).bind
            (NewRSA e d (((3 : Nat) : Int) * (5 : Nat))).Decrypt = some x ∧
          (x ^ e.toNat % (((3 : Nat) : Int) * (5 : Nat))) ^ d.toNat
            % (((3 : Nat) : Int) * (5 : Nat)) = x :=
  integer_round_trip 3 5 (by norm_num) (by norm_num) (by decide) 8 (by decide)

/-- C3. Public exponent: for distinct primes `p`, `q`, `phi = (p-1)*(q-1)` and
enough fuel, the `e` that `deriveKeys` returns satisfies `e ≥ 2` and
`gcd(e, phi) = 1`, and no integer `k` with `2 ≤ k < e` has `gcd(k, phi) = 1`. -/
theorem public_exponent_least (p q : Nat) (hp : p.Prime) (hq : q.Prime) (hpq : p ≠ q)
    (fuel : Nat) (hfuel : (p - 1) * (q - 1) ≤ fuel) :
    ∃ e d : Int, deriveKeys fuel (p : Int) (q : Int) = .ok (e, d, (p : Int) * q) ∧
      2 ≤ e ∧ Int.gcd e (((p : Int) - 1) * ((q : Int) - 1)) = 1 ∧
      ∀ k : Int, 2 ≤ k → k < e → Int.gcd k (((p : Int) - 1) * ((q : Int) - 1)) ≠ 1 := by
  obtain ⟨e, d, hk, ⟨he2, -, heg, hemin⟩, -⟩ :=
    deriveKeys_spec p q hp.one_le hq.one_le (two_le_phi p q hp hq hpq) fuel hfuel
  have hcast : ((p : Int) - 1) * ((q : Int) - 1) = (((p - 1) * (q - 1) : Nat) : Int) := by
    push_cast [Nat.cast_sub hp.one_le, Nat.cast_sub hq.one_le]
    ring
  refine ⟨e, d, hk, by exact_mod_cast he2, ?_, ?_⟩
  · rw [hcast, Int.gcd_natCast_natCast]; exact heg
  · intro k hk2 hke
    obtain ⟨k', rfl⟩ := Int.eq_ofNat_of_zero_le (by omega : (0 : Int) ≤ k)
    rw [hcast, Int.gcd_natCast_natCast]
    exact hemin k' (by exact_mod_cast hk2) (by exact_mod_cast hke)

/-- C3 at `p = 7`, `q = 11`, fuel 60: `phi = 60` and the scan passes 2 to 6. -/
theorem public_exponent_least_witness :
    ∃ e d : Int, deriveKeys 60 ((7 : Nat) : Int) ((11 : Nat) : Int)
        = .ok (e, d, ((7 : Nat) : Int) * (11 : Nat)) ∧
      2 ≤ e ∧ Int.gcd e ((((7 : Nat) : Int) - 1) * (((11 : Nat) : Int) - 1)) = 1 ∧
      ∀ k : Int, 2 ≤ k → k < e →
        Int.gcd k ((((7 : Nat) : Int) - 1) * (((11 : Nat) : Int) - 1)) ≠ 1 :=
  public_exponent_least 7 11 (by norm_num) (by norm_num) (by decide) 60 (by decide)

/-- C4. Private exponent: for distinct primes `p`, `q`, `phi = (p-1)*(q-1)`,
enough fuel and `e` the public exponent `deriveKeys` returns, the `d` it
returns satisfies `d ≥ 2` and `(d * e) mod phi = 1`, and no integer `k` with
`2 ≤ k < d` has `(k * e) mod phi = 1`. -/
theorem private_exponent_least (p q : Nat) (hp : p.Prime) (hq : q.Prime) (hpq : p ≠ q)
    (fuel : Nat) (hfuel : (p - 1) * (q - 1) ≤ fuel) :
    ∃ e d : Int, deriveKeys fuel (p : Int) (q : Int) = .ok (e, d, (p : Int) * q) ∧
      2 ≤ d ∧ (d * e) % (((p : Int) - 1) * ((q : Int) - 1)) = 1 ∧
      ∀ k : Int, 2 ≤ k → k < d → (k * e) % (((p : Int) - 1) * ((q : Int) - 1)) ≠ 1 := by
  obtain ⟨e, d, hk, -, ⟨hd2, -, hdm, hdmin⟩⟩ :=
    deriveKeys_spec p q hp.one_le hq.one_le (two_le_phi p q hp hq hpq) fuel hfuel
  have hcast : ((p : Int) - 1) * ((q : Int) - 1) = (((p - 1) * (q - 1) : Nat) : Int) := by
    push_cast [Nat.cast_sub hp.one_le, Nat.cast_sub hq.one_le]
    ring
  refine ⟨e, d, hk, by exact_mod_cast hd2, ?_, ?_⟩
  · rw [hcast]; exact_mod_cast hdm
  · intro k hk2 hkd
    obtain ⟨k', rfl⟩ := Int.eq_ofNat_of_zero_le (by omega : (0 : Int) ≤ k)
    rw [hcast]
    have := hdmin k' (by exact_mod_cast hk2) (by exact_mod_cast hkd)
    exact_mod_cast this

/-- C4 at `p = 13`, `q = 7`, fuel 72: `phi = 72`, `e = 5` and `d = 29`. -/
theorem private_exponent_least_witness :
    ∃ e d : Int, deriveKeys 72 ((13 : Nat) : Int) ((7 : Nat) : Int)
        = .ok (e, d, ((13 : Nat) : Int) * (7 : Nat)) ∧
      2 ≤ d ∧ (d * e) % ((((13 : Nat) : Int) - 1) * (((7 : Nat) : Int) - 1)) = 1 ∧
      ∀ k : Int, 2 ≤ k → k < d →
        (k * e) % ((((13 : Nat) : Int) - 1) * (((7 : Nat) : Int) - 1)) ≠ 1 :=
  private_exponent_least 13 7 (by norm_num) (by norm_num) (by decide) 72 (by decide)

/-! ## Message round trips (C2, C8, C9) -/

/-- C2 (as stated, refuted), at two keys. The primes 13 and 7 give the key
`(5, 29, 91)`: the one-byte message with code 200, which is not below the
modulus, is encrypted to 44 and decrypted to 18. The 33-bit primes 6456577121
and 6879707137 give a key whose modulus exceeds `2^63`: the one-byte message
with code 53 is stored as the `int64` `-9177708144337360019` and decrypted to
233. -/
theorem message_round_trip_counterexample :
    (Nat.Prime 13 ∧ Nat.Prime 7 ∧ deriveKeys 72 13 7 = .ok (5, 29, 91) ∧
      (NewRSA 5 29 91).EncryptMessage [200] = .ok [44] ∧
      (NewRSA 5 29 91).DecryptMessage [44] = .ok [18] ∧
      ((NewRSA 5 29 91).EncryptMessage [200]).bind (NewRSA 5 29 91).DecryptMessage
        ≠ .ok [200]) ∧
    (Nat.Prime 6456577121 ∧ Nat.Prime 6879707137 ∧
      deriveKeys 44419359686598328320 6456577121 6879707137
        = .ok (11, 24228741647235451811, 44419359699934612577) ∧
      (NewRSA 11 24228741647235451811 44419359699934612577).EncryptMessage [53]
        = .ok [-9177708144337360019] ∧
      (NewRSA 11 24228741647235451811 44419359699934612577).DecryptMessage
        [-9177708144337360019] = .ok [233] ∧
      ((NewRSA 11 24228741647235451811 44419359699934612577).EncryptMessage [53]).bind
        (NewRSA 11 24228741647235451811 44419359699934612577).DecryptMessage
        ≠ .ok [53]) := by
  refine ⟨⟨by norm_num, by norm_num, by rfl, by decide, by decide, by decide⟩,
    prime_6456577121, prime_6879707137, deriveKeys_33bit _ le_rfl, wrapped_53.1,
    wrapped_53.2, ?_⟩
  rw [wrapped_53.1]
  show (NewRSA 11 24228741647235451811 44419359699934612577).DecryptMessage
    [-9177708144337360019] ≠ .ok [53]
  rw [wrapped_53.2]
  decide

/-- C2 (amended). For distinct primes `p`, `q` with `p * q ≤ 2^63`, enough fuel,
and every message all of whose bytes are below `p * q` (the empty one
included), `deriveKeys` returns a key `(e, d, p * q)` for which
`DecryptMessage` of `EncryptMessage m` is `m`. -/
theorem message_round_trip_of_lt (p q : Nat) (hp : p.Prime) (hq : q.Prime) (hpq : p ≠ q)
    (hn : (p : Int) * q ≤ 2 ^ 63) (fuel : Nat) (hfuel : (p - 1) * (q - 1) ≤ fuel)
    (m : List (Fin 256)) (hm : ∀ b ∈ m, (b.val : Int) < (p : Int) * q) :
    ∃ e d : Int, deriveKeys fuel (p : Int) (q : Int) = .ok (e, d, (p : Int) * q) ∧
      ((NewRSA e d ((p : Int) * q)).EncryptMessage m).bind
        (NewRSA e d ((p : Int) * q)).DecryptMessage = .ok m := by
  obtain ⟨e, d, hk, -, -, -, hed, -⟩ :=
    deriveKeys_spec p q hp.one_le hq.one_le (two_le_phi p q hp hq hpq) fuel hfuel
  obtain ⟨cs, hcs, -, -, hdec⟩ := message_round_trip p q e d hp hq hpq hed hn m hm
  refine ⟨e, d, hk, ?_⟩
  rw [hcs]
  exact hdec

/-- C2 (amended) at `p = 13`, `q = 7`, fuel 72 and the message with bytes
72 and 90. -/
theorem message_round_trip_of_lt_witness :
    ∃ e d : Int, deriveKeys 72 ((13 : Nat) : Int) ((7 : Nat) : Int)
        = .ok (e, d, ((13 : Nat) : Int) * (7 : Nat)) ∧
      ((NewRSA e d (((13 : Nat) : Int) * (7 : Nat))).EncryptMessage [72, 90]).bind
        (NewRSA e d (((13 : Nat) : Int) * (7 : Nat))).DecryptMessage = .ok [72, 90] :=
  message_round_trip_of_lt 13 7 (by norm_num) (by norm_num) (by decide) (by norm_num) 72
    (by decide) [72, 90] (by simp; decide)

/-- C8. The scenario of `main.go`: for every prime `p` of exactly 5 bits, every
prime `q ≠ p` of exactly 5 or exactly 4 bits and enough fuel, `deriveKeys`
returns a key `(e, d, n)`, `EncryptMessage "Hello World!"` is a sequence of 12
integers each in `[0, n)`, and `DecryptMessage` of it is `"Hello World!"`. -/
theorem hello_world_round_trip (p q : Nat) (hp : p.Prime) (hq : q.Prime) (hpq : q ≠ p)
    (hpb : 16 ≤ p ∧ p < 32) (hqb : (16 ≤ q ∧ q < 32) ∨ (8 ≤ q ∧ q < 16))
    (fuel : Nat) (hfuel : (p - 1) * (q - 1) ≤ fuel) :
    ∃ (e d n : Int) (cs : List Int), n = (p : Int) * q ∧
      deriveKeys fuel (p : Int) (q : Int) = .ok (e, d, n) ∧
      (NewRSA e d n).EncryptMessage helloWorld = .ok cs ∧ cs.length = 12 ∧
      (∀ c ∈ cs, 0 ≤ c ∧ c < n) ∧ (NewRSA e d n).DecryptMessage cs = .ok helloWorld := by
  obtain ⟨e, d, hk, -, -, -, hed, -⟩ :=
    deriveKeys_spec p q hp.one_le hq.one_le (two_le_phi p q hp hq hpq.symm) fuel hfuel
  have hlo : 128 ≤ p * q := by
    calc 128 = 16 * 8 := by norm_num
      _ ≤ p * q := Nat.mul_le_mul hpb.1 (by omega)
  have hhi : p * q ≤ 32 * 32 := Nat.mul_le_mul (by omega) (by omega)
  have hloI : (128 : Int) ≤ (p : Int) * q := by exact_mod_cast hlo
  have hhiI : (p : Int) * q ≤ 32 * 32 := by exact_mod_cast hhi
  have hm : ∀ b ∈ helloWorld, (b.val : Int) < (p : Int) * q := by
    intro b hb
    have : (b.val : Int) < 128 := by
      simp only [helloWorld, List.mem_cons, List.mem_singleton, List.not_mem_nil,
        or_false] at hb
      rcases hb with h | h | h | h | h | h | h | h | h | h | h | h <;> subst h <;> decide
    omega
  obtain ⟨cs, hcs, hlen, hrange, hdec⟩ :=
    message_round_trip p q e d hp hq hpq.symm hed (by norm_num; omega) helloWorld hm
  exact ⟨e, d, (p : Int) * q, cs, rfl, hk, hcs, by rw [hlen]; rfl, hrange, hdec⟩

/-- C8 at `p = 29`, `q = 13` (the second prime generated again with 4 bits),
fuel 336. -/
theorem hello_world_round_trip_witness :
    ∃ (e d n : Int) (cs : List Int), n = ((29 : Nat) : Int) * (13 : Nat) ∧
      deriveKeys 336 ((29 : Nat) : Int) ((13 : Nat) : Int) = .ok (e, d, n) ∧
      (NewRSA e d n).EncryptMessage helloWorld = .ok cs ∧ cs.length = 12 ∧
      (∀ c ∈ cs, 0 ≤ c ∧ c < n) ∧ (NewRSA e d n).DecryptMessage cs = .ok helloWorld :=
  hello_world_round_trip 29 13 (by norm_num) (by norm_num) (by decide) (by decide)
    (by decide) 336 (by decide)

/-- C9 (as stated, refuted), at two keys. The primes 7 and 3 give the key
`(5, 5, 21)`: the message `"A"` (code 65) is encrypted to 11 and decrypted to
the byte 2. The 33-bit primes 6456577121 and 6879707137 give a key whose
modulus exceeds `2^64`: `"A"` is stored as the low 64 bits
`6194983892734174816` of its ciphertext and decrypted to the byte 198. -/
theorem single_character_counterexample :
    (Nat.Prime 7 ∧ Nat.Prime 3 ∧ deriveKeys 12 7 3 = .ok (5, 5, 21) ∧
      (NewRSA 5 5 21).EncryptMessage [65] = .ok [11] ∧
      (NewRSA 5 5 21).DecryptMessage [11] = .ok [2] ∧
      ((NewRSA 5 5 21).EncryptMessage [65]).bind (NewRSA 5 5 21).DecryptMessage
        ≠ .ok [65]) ∧
    (Nat.Prime 6456577121 ∧ Nat.Prime 6879707137 ∧
      deriveKeys 44419359686598328320 6456577121 6879707137
        = .ok (11, 24228741647235451811, 44419359699934612577) ∧
      (NewRSA 11 24228741647235451811 44419359699934612577).EncryptMessage [65]
        = .ok [6194983892734174816] ∧
      (NewRSA 11 24228741647235451811 44419359699934612577).DecryptMessage
        [6194983892734174816] = .ok [198] ∧
      ((NewRSA 11 24228741647235451811 44419359699934612577).EncryptMessage [65]).bind
        (NewRSA 11 24228741647235451811 44419359699934612577).DecryptMessage
        ≠ .ok [65]) := by
  refine ⟨⟨by norm_num, by norm_num, by decide, by decide, by decide, by decide⟩,
    prime_6456577121, prime_6879707137, deriveKeys_33bit _ le_rfl, wrapped_65.1,
    wrapped_65.2, ?_⟩
  rw [wrapped_65.1]
  show (NewRSA 11 24228741647235451811 44419359699934612577).DecryptMessage
    [6194983892734174816] ≠ .ok [65]
  rw [wrapped_65.2]
  decide

/-- C9 (amended). For distinct primes `p`, `q` with `65 < p * q ≤ 2^63` and
enough fuel, `deriveKeys` returns a key `(e, d, p * q)` for which
`DecryptMessage` of `EncryptMessage "A"` is `"A"`, the one-byte message with
code 65. -/
theorem single_character_round_trip (p q : Nat) (hp : p.Prime) (hq : q.Prime) (hpq : p ≠ q)
    (hlo : (65 : Int) < (p : Int) * q) (hn : (p : Int) * q ≤ 2 ^ 63)
    (fuel : Nat) (hfuel : (p - 1) * (q - 1) ≤ fuel) :
    ∃ e d : Int, deriveKeys fuel (p : Int) (q : Int) = .ok (e, d, (p : Int) * q) ∧
      ((NewRSA e d ((p : Int) * q)).EncryptMessage [65]).bind
        (NewRSA e d ((p : Int) * q)).DecryptMessage = .ok [65] := by
  obtain ⟨e, d, hk, -, -, -, hed, -⟩ :=
    deriveKeys_spec p q hp.one_le hq.one_le (two_le_phi p q hp hq hpq) fuel hfuel
  have hm : ∀ b ∈ ([65] : List (Fin 256)), (b.val : Int) < (p : Int) * q := by
    intro b hb
    rw [List.mem_singleton] at hb
    subst hb
    exact hlo
  obtain ⟨cs, hcs, -, -, hdec⟩ := message_round_trip p q e d hp hq hpq hed hn [65] hm
  refine ⟨e, d, hk, ?_⟩
  rw [hcs]
  exact hdec

/-- C9 (amended) at `p = 13`, `q = 7`, fuel 72: the modulus is 91. -/
theorem single_character_round_trip_witness :
    ∃ e d : Int, deriveKeys 72 ((13 : Nat) : Int) ((7 : Nat) : Int)
        = .ok (e, d, ((13 : Nat) : Int) * (7 : Nat)) ∧
      ((NewRSA e d (((13 : Nat) : Int) * (7 : Nat))).EncryptMessage [65]).bind
        (NewRSA e d (((13 : Nat) : Int) * (7 : Nat))).DecryptMessage = .ok [65] :=
  single_character_round_trip 13 7 (by norm_num) (by norm_num) (by decide) (by norm_num)
    (by norm_num) 72 (by decide)

/-! ## Prime collisions (C5) -/

/-- C5. Prime collision handling: when the prime source answers each request
for `b` bits (`2 ≤ b ≤ bits`) with a prime of exactly `b` bits, then for every
`bits ≥ 3`, every such source and enough fuel, the collision loop ends with
primes `p ≠ q` after generating `q` again at most once (then with `bits - 1`
bits), and `GenerateKeys` returns a triple whose modulus is exactly `p * q`. -/
theorem collision_at_most_once (src : PrimeSource) (bits : Int) (hbits : 3 ≤ bits)
    (hsrc : ∀ (call : Nat) (b : Int), 2 ≤ b → b ≤ bits →
      ∃ r : Nat, src call b = some (r : Int) ∧ primeOfBits b r)
    (fuel : Nat) (hfuel : 4 ^ bits.toNat ≤ fuel) :
    ∃ (p q regen : Nat) (e d : Int),
      generatePrimes src fuel bits = .ok (some (p : Int), some (q : Int), regen) ∧
      regen ≤ 1 ∧ p ≠ q ∧ primeOfBits bits p ∧
      (regen = 0 → primeOfBits bits q) ∧ (regen = 1 → primeOfBits (bits - 1) q) ∧
      GenerateKeys src fuel bits = .ok (e, d, (p : Int) * q) := by
  have h4 : 1 ≤ 4 ^ bits.toNat := Nat.one_le_pow _ _ (by norm_num)
  obtain ⟨p, q, regen, hgen, hregen, hpq, hpb, hq0, hq1⟩ :=
    generatePrimes_spec src bits hbits hsrc fuel (by omega)
  have hqP : q.Prime ∧ q < 2 ^ bits.toNat := by
    rcases Nat.eq_or_lt_of_le hregen with h | h
    · have hq := hq1 h
      refine ⟨hq.1, lt_of_lt_of_le hq.2.2 (Nat.pow_le_pow_right (by norm_num) ?_)⟩
      omega
    · have hq := hq0 (by omega)
      exact ⟨hq.1, hq.2.2⟩
  have hphi : (p - 1) * (q - 1) ≤ fuel := by
    have h1 : (p - 1) * (q - 1) ≤ 2 ^ bits.toNat * 2 ^ bits.toNat :=
      Nat.mul_le_mul (by have := hpb.2.2; omega) (by have := hqP.2; omega)
    have h2 : 2 ^ bits.toNat * 2 ^ bits.toNat = 4 ^ bits.toNat := by
      rw [← Nat.mul_pow]
    omega
  obtain ⟨e, d, hk, -⟩ :=
    deriveKeys_spec p q hpb.1.one_le hqP.1.one_le (two_le_phi p q hpb.1 hqP.1 hpq) fuel hphi
  refine ⟨p, q, regen, e, d, hgen, hregen, hpq, hpb, hq0, hq1, ?_⟩
  simp only [GenerateKeys, hgen]
  exact hk

/-- C5 at `bits = 5` with a source whose first two answers collide (29 and
29): `q` is generated again once, as the 4-bit prime 13. -/
theorem collision_at_most_once_witness :
    ∃ (p q regen : Nat) (e d : Int),
      generatePrimes collidingSource 1024 5 = .ok (some (p : Int), some (q : Int), regen) ∧
      regen ≤ 1 ∧ p ≠ q ∧ primeOfBits 5 p ∧
      (regen = 0 → primeOfBits 5 q) ∧ (regen = 1 → primeOfBits (5 - 1) q) ∧
      GenerateKeys collidingSource 1024 5 = .ok (e, d, (p : Int) * q) :=
  collision_at_most_once collidingSource 5 (by decide)
    (by
      intro call b h2 h5
      have hb : b = 2 ∨ b = 3 ∨ b = 4 ∨ b = 5 := by omega
      rcases hb with h | h | h | h <;> subst h
      · exact ⟨3, rfl, by norm_num, by decide, by decide⟩
      · exact ⟨7, rfl, by norm_num, by decide, by decide⟩
      · exact ⟨13, rfl, by norm_num, by decide, by decide⟩
      · exact ⟨29, rfl, by norm_num, by decide, by decide⟩)
    1024 (by decide)

/-! ## The operations element by element (C6, C7, C10) -/

/-- C6 (as stated, refuted). With the key `(11, d, n)` that the 33-bit primes
6456577121 and 6879707137 give, whose modulus exceeds `2^63`, `Encrypt 53` is
`9269035929372191597`, which is above `2^63 - 1`; the `int64` that
`EncryptMessage` stores for the byte 53 is `-9177708144337360019`. -/
theorem encrypt_message_counterexample :
    deriveKeys 44419359686598328320 6456577121 6879707137
        = .ok (11, 24228741647235451811, 44419359699934612577) ∧
      (0 : Int) < 44419359699934612577 ∧
      (NewRSA 11 24228741647235451811 44419359699934612577).Encrypt 53
        = some 9269035929372191597 ∧
      (NewRSA 11 24228741647235451811 44419359699934612577).EncryptMessage [53]
        = .ok [-9177708144337360019] := by
  refine ⟨deriveKeys_33bit _ le_rfl, by decide, by decide, by decide⟩

/-- C6 (amended). For every key with a non-negative public exponent `e` and a
modulus `0 < n ≤ 2^63`, and every message `m`, `EncryptMessage m` has the
length of `m`, and its `i`-th element is `Encrypt` of the byte `m[i]`, the
integer `m[i] ^ e mod n`, which lies in `[0, n)`. -/
theorem encrypt_message_elementwise (rsa : RSA) (he : 0 ≤ rsa.PublicKey) (hn : 0 < rsa.N)
    (hn63 : rsa.N ≤ 2 ^ 63) (m : List (Fin 256)) :
    ∃ cs : List Int, rsa.EncryptMessage m = .ok cs ∧ cs.length = m.length ∧
      ∀ (i : Nat) (b : Fin 256), m[i]? = some b →
        ∃ c : Int, rsa.Encrypt (b.val : Int) = some c ∧
          c = (b.val : Int) ^ rsa.PublicKey.toNat % rsa.N ∧ 0 ≤ c ∧ c < rsa.N ∧
          cs[i]? = some c := by
  refine ⟨_, EncryptMessage_eq rsa he hn m, by simp, ?_⟩
  intro i b hb
  have h0 : 0 ≤ (b.val : Int) ^ rsa.PublicKey.toNat % rsa.N := Int.emod_nonneg _ (ne_of_gt hn)
  have h1 : (b.val : Int) ^ rsa.PublicKey.toNat % rsa.N < rsa.N := Int.emod_lt_of_pos _ hn
  refine ⟨_, Exp_eq _ _ _ he hn, rfl, h0, h1, ?_⟩
  rw [List.getElem?_map, hb, Option.map_some', Int64_of_lt _ h0 (lt_of_lt_of_le h1 hn63)]

/-- C6 (amended) at the key `(5, 269, 377)` and the message `"Hello World!"`. -/
theorem encrypt_message_elementwise_witness :
    ∃ cs : List Int, (NewRSA 5 269 377).EncryptMessage helloWorld = .ok cs ∧
      cs.length = helloWorld.length ∧
      ∀ (i : Nat) (b : Fin 256), helloWorld[i]? = some b →
        ∃ c : Int, (NewRSA 5 269 377).Encrypt (b.val : Int) = some c ∧
          c = (b.val : Int) ^ (NewRSA 5 269 377).PublicKey.toNat % (NewRSA 5 269 377).N ∧
          0 ≤ c ∧ c < (NewRSA 5 269 377).N ∧ cs[i]? = some c :=
  encrypt_message_elementwise (NewRSA 5 269 377) (by decide) (by decide) (by decide)
    helloWorld

/-- C7 (amended). `DecryptMessage` element by element: for every key with a
non-negative private exponent `d` and a modulus `n > 0`, and every sequence `c`
of integers (every `int64`, negative ones included), `DecryptMessage c` has the
length of `c`, and its `i`-th byte is `Decrypt c[i]` modulo 256, the low 8 bits
of `c[i] ^ d mod n`. -/
theorem decrypt_message_elementwise (rsa : RSA) (hd : 0 ≤ rsa.PrivateKey) (hn : 0 < rsa.N)
    (cipher : List Int) :
    ∃ bs : List (Fin 256), rsa.DecryptMessage cipher = .ok bs ∧ bs.length = cipher.length ∧
      ∀ (i : Nat) (v : Int), cipher[i]? = some v →
        ∃ (y : Int) (b : Fin 256), rsa.Decrypt v = some y ∧
          y = v ^ rsa.PrivateKey.toNat % rsa.N ∧ bs[i]? = some b ∧
          (b.val : Int) = y % 256 := by
  refine ⟨_, DecryptMessage_eq rsa hd hn cipher, by simp, ?_⟩
  intro i v hv
  have h0 : 0 ≤ v ^ rsa.PrivateKey.toNat % rsa.N := Int.emod_nonneg _ (ne_of_gt hn)
  refine ⟨_, byteOf (Int64 (v ^ rsa.PrivateKey.toNat % rsa.N)), Exp_eq _ _ _ hd hn, rfl,
    ?_, ?_⟩
  · rw [List.getElem?_map, hv, Option.map_some']
  · rw [← Int64_emod_256 _ h0]
    simp only [byteOf]
    omega

/-- C7 (amended) at the key `(5, 5, 21)` and the sequence `11, -3, 2^63 - 1`. -/
theorem decrypt_message_elementwise_witness :
    ∃ bs : List (Fin 256),
      (NewRSA 5 5 21).DecryptMessage [11, -3, 9223372036854775807] = .ok bs ∧
      bs.length = ([11, -3, 9223372036854775807] : List Int).length ∧
      ∀ (i : Nat) (v : Int), ([11, -3, 9223372036854775807] : List Int)[i]? = some v →
        ∃ (y : Int) (b : Fin 256), (NewRSA 5 5 21).Decrypt v = some y ∧
          y = v ^ (NewRSA 5 5 21).PrivateKey.toNat % (NewRSA 5 5 21).N ∧
          bs[i]? = some b ∧ (b.val : Int) = y % 256 :=
  decrypt_message_elementwise (NewRSA 5 5 21) (by decide) (by decide)
    [11, -3, 9223372036854775807]

/-- C10 (amended). Out-of-range input: for every key with non-negative
exponents and a modulus `n > 0`, and every integer `x` (negative or at least `n` included),
`Encrypt x` is a value in `[0, n)` equal to `Encrypt (x mod n)`, and
`Decrypt x` is a value in `[0, n)` equal to `Decrypt (x mod n)`; neither
returns nil. -/
theorem out_of_range_reduced (rsa : RSA) (he : 0 ≤ rsa.PublicKey) (hd : 0 ≤ rsa.PrivateKey)
    (hn : 0 < rsa.N) (x : Int) :
    (∃ c : Int, rsa.Encrypt x = some c ∧ 0 ≤ c ∧ c < rsa.N ∧
        rsa.Encrypt (x % rsa.N) = some c) ∧
      (∃ y : Int, rsa.Decrypt x = some y ∧ 0 ≤ y ∧ y < rsa.N ∧
        rsa.Decrypt (x % rsa.N) = some y) := by
  constructor
  · refine ⟨_, Exp_eq _ _ _ he hn, Int.emod_nonneg _ (ne_of_gt hn), Int.emod_lt_of_pos _ hn, ?_⟩
    rw [RSA.Encrypt, Exp_eq _ _ _ he hn]
    exact congrArg some ((Int.mod_modEq x rsa.N).pow _)
  · refine ⟨_, Exp_eq _ _ _ hd hn, Int.emod_nonneg _ (ne_of_gt hn), Int.emod_lt_of_pos _ hn, ?_⟩
    rw [RSA.Decrypt, Exp_eq _ _ _ hd hn]
    exact congrArg some ((Int.mod_modEq x rsa.N).pow _)

/-- C10 (amended) at the key `(5, 269, 377)` and `x = -1000`. -/
theorem out_of_range_reduced_witness :
    (∃ c : Int, (NewRSA 5 269 377).Encrypt (-1000) = some c ∧ 0 ≤ c ∧
        c < (NewRSA 5 269 377).N ∧
        (NewRSA 5 269 377).Encrypt (-1000 % (NewRSA 5 269 377).N) = some c) ∧
      (∃ y : Int, (NewRSA 5 269 377).Decrypt (-1000) = some y ∧ 0 ≤ y ∧
        y < (NewRSA 5 269 377).N ∧
        (NewRSA 5 269 377).Decrypt (-1000 % (NewRSA 5 269 377).N) = some y) :=
  out_of_range_reduced (NewRSA 5 269 377) (by decide) (by decide) (by decide) (-1000)

/-! ## No chaining between positions (C11) and the empty message (C13) -/

/-- With a non-negative exponent `Exp` returns a value, whatever the modulus. -/
theorem Exp_isSome (x y m : Int) (hy : 0 ≤ y) : ∃ z, Exp x y m = some z := by
  unfold Exp
  rw [if_neg (not_lt.mpr hy)]
  split_ifs
  · exact ⟨_, rfl⟩
  · exact ⟨_, rfl⟩

/-- With a non-negative public exponent `EncryptMessage` returns a sequence. -/
theorem EncryptMessage_isOk (rsa : RSA) (he : 0 ≤ rsa.PublicKey) (m : List (Fin 256)) :
    ∃ cs, rsa.EncryptMessage m = .ok cs := by
  induction m with
  | nil => exact ⟨[], rfl⟩
  | cons b rest ih =>
    obtain ⟨cs, hcs⟩ := ih
    obtain ⟨z, hz⟩ := Exp_isSome (b.val : Int) rsa.PublicKey rsa.N he
    exact ⟨Int64 z :: cs, by simp only [RSA.EncryptMessage, RSA.Encrypt, hz, hcs]⟩

/-- Whenever `EncryptMessage` returns, the element at a position is `Int64` of
`Encrypt` of the byte at that position, and of nothing else. -/
theorem EncryptMessage_getElem (rsa : RSA) :
    ∀ (m : List (Fin 256)) (cs : List Int), rsa.EncryptMessage m = .ok cs →
      ∀ (i : Nat) (b : Fin 256), m[i]? = some b →
        ∃ z, rsa.Encrypt (b.val : Int) = some z ∧ cs[i]? = some (Int64 z) := by
  intro m
  induction m with
  | nil =>
    intro cs _ i b hb
    simp at hb
  | cons a rest ih =>
    intro cs h i b hb
    simp only [RSA.EncryptMessage] at h
    cases hz : rsa.Encrypt (a.val : Int) with
    | none => rw [hz] at h; cases h
    | some z =>
      rw [hz] at h
      cases hrest : rsa.EncryptMessage rest with
      | error f => rw [hrest] at h; cases h
      | ok cs0 =>
        rw [hrest] at h
        obtain rfl : Int64 z :: cs0 = cs := by
          simpa using h
        cases i with
        | zero =>
          simp only [List.getElem?_cons_zero, Option.some.injEq] at hb
          subst hb
          exact ⟨z, hz, by simp⟩
        | succ i =>
          simp only [List.getElem?_cons_succ] at hb
          obtain ⟨z', hz', hget⟩ := ih cs0 hrest i b hb
          exact ⟨z', hz', by simpa using hget⟩

/-- C11. No chaining or randomisation: for every key, `EncryptMessage` returns
a sequence when the public exponent is non-negative, and whenever it returns
on two messages `m1`, `m2` (the same message included), positions `i`, `j`
holding the same byte `m1[i] = m2[j]` hold the same ciphertext integer, which
is `Int64` of `Encrypt` of that byte: it depends on the byte and the key only. -/
theorem equal_bytes_equal_ciphertext (rsa : RSA) (m1 m2 : List (Fin 256)) :
    (0 ≤ rsa.PublicKey →
      ∃ cs1 cs2, rsa.EncryptMessage m1 = .ok cs1 ∧ rsa.EncryptMessage m2 = .ok cs2) ∧
    ∀ cs1 cs2 : List Int, rsa.EncryptMessage m1 = .ok cs1 → rsa.EncryptMessage m2 = .ok cs2 →
      ∀ (i j : Nat) (b : Fin 256), m1[i]? = some b → m2[j]? = some b →
        ∃ v z : Int, cs1[i]? = some v ∧ cs2[j]? = some v ∧
          rsa.Encrypt (b.val : Int) = some z ∧ v = Int64 z := by
  constructor
  · intro he
    obtain ⟨cs1, h1⟩ := EncryptMessage_isOk rsa he m1
    obtain ⟨cs2, h2⟩ := EncryptMessage_isOk rsa he m2
    exact ⟨cs1, cs2, h1, h2⟩
  · intro cs1 cs2 h1 h2 i j b hi hj
    obtain ⟨z1, hz1, hg1⟩ := EncryptMessage_getElem rsa m1 cs1 h1 i b hi
    obtain ⟨z2, hz2, hg2⟩ := EncryptMessage_getElem rsa m2 cs2 h2 j b hj
    have hz : z1 = z2 := Option.some.inj (hz1.symm.trans hz2)
    subst hz
    exact ⟨Int64 z1, z1, hg1, hg2, hz1, rfl⟩

/-- C11 at the key `(5, 269, 377)` and the message `"Hello World!"`, in which
the byte 108 stands at positions 2, 3 and 9 and the byte 111 at 4 and 7. -/
theorem equal_bytes_equal_ciphertext_witness :
    (0 ≤ (NewRSA 5 269 377).PublicKey →
      ∃ cs1 cs2, (NewRSA 5 269 377).EncryptMessage helloWorld = .ok cs1 ∧
        (NewRSA 5 269 377).EncryptMessage helloWorld = .ok cs2) ∧
    ∀ cs1 cs2 : List Int, (NewRSA 5 269 377).EncryptMessage helloWorld = .ok cs1 →
      (NewRSA 5 269 377).EncryptMessage helloWorld = .ok cs2 →
      ∀ (i j : Nat) (b : Fin 256), helloWorld[i]? = some b → helloWorld[j]? = some b →
        ∃ v z : Int, cs1[i]? = some v ∧ cs2[j]? = some v ∧
          (NewRSA 5 269 377).Encrypt (b.val : Int) = some z ∧ v = Int64 z :=
  equal_bytes_equal_ciphertext (NewRSA 5 269 377) helloWorld helloWorld

/-- C13. Empty message: for every key, `EncryptMessage` of the empty string
returns the empty sequence and `DecryptMessage` of the empty sequence returns
the empty string; neither stops with a fault. -/
theorem empty_message (rsa : RSA) :
    rsa.EncryptMessage [] = .ok [] ∧ rsa.DecryptMessage [] = .ok [] :=
  ⟨rfl, rfl⟩

/-! ## A failing prime source (C12) -/

/-- With `p` nil the collision loop never returns a pair: it stops on a nil
dereference as soon as `q` is not nil, and goes on while `q` is nil. -/
theorem collisionLoop_nil_left (src : PrimeSource) (bits : Int) :
    ∀ (fuel call : Nat) (q : Option Int),
      ∃ f, collisionLoop src bits none fuel call q = .error f := by
  intro fuel
  induction fuel with
  | zero =>
    intro call q
    cases q with
    | none => exact ⟨.outOfFuel, by simp [collisionLoop, Cmp]⟩
    | some q => exact ⟨.nilDereference, by simp [collisionLoop, Cmp]⟩
  | succ fuel ih =>
    intro call q
    cases q with
    | none =>
      cases hr : randPrime src call (bitsMinusOne bits) with
      | error f =>
        refine ⟨f, ?_⟩
        rw [collisionLoop]
        simp [Cmp, hr]
      | ok q1 =>
        obtain ⟨f, hf⟩ := ih (call + 1) q1
        refine ⟨f, ?_⟩
        rw [collisionLoop]
        simp [Cmp, hr, hf]
    | some q => exact ⟨.nilDereference, by simp [collisionLoop, Cmp]⟩

/-- With `p` not nil and `q` nil the comparison dereferences nil. -/
theorem collisionLoop_nil_right (src : PrimeSource) (bits p : Int) (fuel call : Nat) :
    collisionLoop src bits (some p) fuel call none = .error .nilDereference := by
  cases fuel <;> simp [collisionLoop, Cmp]

/-- With `p` nil and `q` not nil the comparison dereferences nil. -/
theorem collisionLoop_nil_some (src : PrimeSource) (bits q : Int) (fuel call : Nat) :
    collisionLoop src bits none fuel call (some q) = .error .nilDereference := by
  cases fuel <;> simp [collisionLoop, Cmp]

/-- With `p` and `q` nil, one pass through the loop generates `q` again. -/
theorem collisionLoop_nil_nil (src : PrimeSource) (bits : Int) (fuel call : Nat) :
    collisionLoop src bits none (fuel + 1) call none
      = match randPrime src call (bitsMinusOne bits) with
        | .error f => .error f
        | .ok q1 => collisionLoop src bits none fuel (call + 1) q1 := by
  rw [collisionLoop]
  simp [Cmp]

/-- When every call that generates `q` again fails with an error, `p` and `q`
stay nil and compare equal, and the collision loop does not end. -/
theorem collisionLoop_all_nil (src : PrimeSource) (bits : Int)
    (hall : ∀ call : Nat, randPrime src call (bitsMinusOne bits) = .ok none) :
    ∀ (fuel call : Nat), collisionLoop src bits none fuel call none = .error .outOfFuel := by
  intro fuel
  induction fuel with
  | zero => intro call; simp [collisionLoop, Cmp]
  | succ fuel ih =>
    intro call
    rw [collisionLoop_nil_nil, hall call]
    exact ih _

/-- An error in the collision loop is the result of `GenerateKeys`. -/
theorem GenerateKeys_of_loop_error (src : PrimeSource) (fuel : Nat) (bits : Int)
    (p q : Option Int) (f : Fault) (hp : randPrime src 0 bits = .ok p)
    (hq : randPrime src 1 bits = .ok q)
    (h : collisionLoop src bits p fuel 2 q = .error f) :
    GenerateKeys src fuel bits = .error f := by
  simp only [GenerateKeys, generatePrimes, hp, hq, h]

/-- A key from `GenerateKeys` means that both calls for `p` and `q` returned. -/
theorem GenerateKeys_ok_calls (src : PrimeSource) (fuel : Nat) (bits : Int)
    (key : Int × Int × Int) (h : GenerateKeys src fuel bits = .ok key) :
    ∃ p q, randPrime src 0 bits = .ok p ∧ randPrime src 1 bits = .ok q := by
  cases hp : randPrime src 0 bits with
  | error f => simp [GenerateKeys, generatePrimes, hp] at h
  | ok p =>
    cases hq : randPrime src 1 bits with
    | error f => simp [GenerateKeys, generatePrimes, hp, hq] at h
    | ok q => exact ⟨p, q, rfl, rfl⟩

/-- At the least `int` the request for `bits - 1` bits is a request for
`2^63 - 1` bits; with a source that gives no prime, `GenerateKeys` stops in
`make`. -/
theorem GenerateKeys_least_int :
    bitsMinusOne (-2 ^ 63) = 2 ^ 63 - 1 ∧ sliceLen (2 ^ 63 - 1) < 0 ∧
      GenerateKeys emptySource 1 (-2 ^ 63) = .error .makeslice := by
  refine ⟨by decide, by decide, by decide⟩

/-- C12 (as stated, refuted). For `bits = 1` both calls to the prime source
return an error and no prime, and `GenerateKeys` surfaces nothing: for no
amount of fuel does the run end, whether with a key or with a fault. When only
the first read of the source fails, the run stops on the dereference of the
nil `p`, not on the read error, which was dropped. -/
theorem failure_propagates_counterexample :
    randPrime collidingSource 0 1 = .ok none ∧
      randPrime collidingSource 1 1 = .ok none ∧
      (¬ ∃ fuel : Nat, GenerateKeys collidingSource fuel 1 ≠ .error .outOfFuel) ∧
      randPrime readErrorSource 0 5 = .ok none ∧
      GenerateKeys readErrorSource 1024 5 = .error .nilDereference := by
  refine ⟨by decide, by decide, ?_, by decide, ?_⟩
  · rintro ⟨fuel, h⟩
    apply h
    apply GenerateKeys_of_loop_error _ _ _ none none _ (by decide) (by decide)
    apply collisionLoop_all_nil
    intro call
    exact randPrime_low _ _ _ (by decide)
  · apply GenerateKeys_of_loop_error _ _ _ none (some 29) _ (by decide) (by decide)
    exact collisionLoop_nil_some _ _ _ _ _

/-- C12 (amended). When a call to `rand.Prime` that `GenerateKeys` makes (for
`p`, for `q`, or for `q` again after a collision) returns an error and no
prime, `GenerateKeys` returns no key triple, whatever the fuel. When exactly
one of `p`, `q` is nil, and when `q` is nil after being generated again, the
run stops on a nil dereference. When `p` and `q` are both nil and every call
that generates `q` again fails too, the run does not leave the collision loop;
this is so for every `bits < 2` above the least `int`. At the least `int`,
`bits - 1` wraps to `2^63 - 1` and the first pass through the loop stops the
run: in `make` when the source gives no prime of that length, and on a nil
dereference if it gives one. -/
theorem failure_yields_no_key (src : PrimeSource) (bits : Int) (fuel : Nat)
    (hfail : randPrime src 0 bits = .ok none ∨ randPrime src 1 bits = .ok none ∨
      (randPrime src 0 bits = randPrime src 1 bits ∧
        randPrime src 2 (bitsMinusOne bits) = .ok none)) :
    (∀ key, GenerateKeys src fuel bits ≠ .ok key) ∧
      (∀ q : Int, randPrime src 0 bits = .ok none → randPrime src 1 bits = .ok (some q) →
        GenerateKeys src fuel bits = .error .nilDereference) ∧
      (∀ p : Int, randPrime src 0 bits = .ok (some p) → randPrime src 1 bits = .ok none →
        GenerateKeys src fuel bits = .error .nilDereference) ∧
      (∀ p : Int, randPrime src 0 bits = .ok (some p) →
        randPrime src 1 bits = .ok (some p) →
        randPrime src 2 (bitsMinusOne bits) = .ok none → 1 ≤ fuel →
        GenerateKeys src fuel bits = .error .nilDereference) ∧
      (randPrime src 0 bits = .ok none → randPrime src 1 bits = .ok none →
        (∀ call : Nat, randPrime src call (bitsMinusOne bits) = .ok none) →
        GenerateKeys src fuel bits = .error .outOfFuel) ∧
      (-2 ^ 63 < bits → bits < 2 → GenerateKeys src fuel bits = .error .outOfFuel) ∧
      (bits = -2 ^ 63 → 1 ≤ fuel →
        (src 2 (2 ^ 63 - 1) = none → GenerateKeys src fuel bits = .error .makeslice) ∧
        (∀ r : Int, src 2 (2 ^ 63 - 1) = some r →
          GenerateKeys src fuel bits = .error .nilDereference)) := by
  have hAll : (randPrime src 0 bits = .ok none → randPrime src 1 bits = .ok none →
      (∀ call : Nat, randPrime src call (bitsMinusOne bits) = .ok none) →
      GenerateKeys src fuel bits = .error .outOfFuel) := fun h0 h1 hall =>
    GenerateKeys_of_loop_error _ _ _ _ _ _ h0 h1 (collisionLoop_all_nil _ _ hall _ _)
  refine ⟨?_, ?_, ?_, ?_, hAll, ?_, ?_⟩
  · intro key hkey
    obtain ⟨p, q, hp, hq⟩ := GenerateKeys_ok_calls _ _ _ _ hkey
    have hloop : ∃ f, collisionLoop src bits p fuel 2 q = .error f := by
      cases p with
      | none => exact collisionLoop_nil_left _ _ _ _ _
      | some p =>
        cases q with
        | none => exact ⟨_, collisionLoop_nil_right _ _ _ _ _⟩
        | some q =>
          rw [hp, hq] at hfail
          rcases hfail with h | h | ⟨heq, hregen⟩
          · cases h
          · cases h
          · obtain rfl : p = q := by
              have := Except.ok.inj heq
              exact Option.some.inj this
            cases fuel with
            | zero => exact ⟨.outOfFuel, by simp [collisionLoop, Cmp]⟩
            | succ fuel =>
              refine ⟨.nilDereference, ?_⟩
              rw [collisionLoop_eq _ _ _ _ _ _ hregen]
              exact collisionLoop_nil_right _ _ _ _ _
    obtain ⟨f, hf⟩ := hloop
    rw [GenerateKeys_of_loop_error _ _ _ _ _ _ hp hq hf] at hkey
    cases hkey
  · intro q h0 h1
    exact GenerateKeys_of_loop_error _ _ _ _ _ _ h0 h1 (collisionLoop_nil_some _ _ _ _ _)
  · intro p h0 h1
    exact GenerateKeys_of_loop_error _ _ _ _ _ _ h0 h1 (collisionLoop_nil_right _ _ _ _ _)
  · intro p h0 h1 hregen hfuel
    obtain ⟨f, rfl⟩ : ∃ f, fuel = f + 1 := ⟨fuel - 1, by omega⟩
    apply GenerateKeys_of_loop_error _ _ _ _ _ _ h0 h1
    rw [collisionLoop_eq _ _ _ _ _ _ hregen]
    exact collisionLoop_nil_right _ _ _ _ _
  · intro hlo hbits
    apply hAll (randPrime_low _ _ _ hbits) (randPrime_low _ _ _ hbits)
    intro call
    rw [bitsMinusOne_eq bits hlo]
    exact randPrime_low _ _ _ (by omega)
  · intro hbits hfuel
    subst hbits
    obtain ⟨f, rfl⟩ : ∃ f, fuel = f + 1 := ⟨fuel - 1, by omega⟩
    have h0 : randPrime src 0 (-2 ^ 63) = .ok none := randPrime_low _ _ _ (by norm_num)
    have h1 : randPrime src 1 (-2 ^ 63) = .ok none := randPrime_low _ _ _ (by norm_num)
    have hb : bitsMinusOne (-2 ^ 63) = 2 ^ 63 - 1 := by decide
    constructor
    · intro hsrc
      apply GenerateKeys_of_loop_error _ _ _ _ _ _ h0 h1
      have hr : randPrime src 2 (2 ^ 63 - 1) = .error .makeslice := by
        simp only [randPrime, hsrc]
        rw [if_neg (by norm_num), if_pos (Or.inl (by decide))]
      rw [collisionLoop_nil_nil, hb, hr]
    · intro r hsrc
      apply GenerateKeys_of_loop_error _ _ _ _ _ _ h0 h1
      have hr : randPrime src 2 (2 ^ 63 - 1) = .ok (some r) :=
        randPrime_some _ _ _ _ (by norm_num) hsrc
      rw [collisionLoop_nil_nil, hb, hr]
      exact collisionLoop_nil_some _ _ _ _ _

/-- C12 (amended) at `bits = 1`, where every call to the source fails, with
fuel 1000. -/
theorem failure_yields_no_key_witness :
    (∀ key, GenerateKeys collidingSource 1000 1 ≠ .ok key) ∧
      (∀ q : Int, randPrime collidingSource 0 1 = .ok none →
        randPrime collidingSource 1 1 = .ok (some q) →
        GenerateKeys collidingSource 1000 1 = .error .nilDereference) ∧
      (∀ p : Int, randPrime collidingSource 0 1 = .ok (some p) →
        randPrime collidingSource 1 1 = .ok none →
        GenerateKeys collidingSource 1000 1 = .error .nilDereference) ∧
      (∀ p : Int, randPrime collidingSource 0 1 = .ok (some p) →
        randPrime collidingSource 1 1 = .ok (some p) →
        randPrime collidingSource 2 (bitsMinusOne 1) = .ok none → 1 ≤ 1000 →
        GenerateKeys collidingSource 1000 1 = .error .nilDereference) ∧
      (randPrime collidingSource 0 1 = .ok none → randPrime collidingSource 1 1 = .ok none →
        (∀ call : Nat, randPrime collidingSource call (bitsMinusOne 1) = .ok none) →
        GenerateKeys collidingSource 1000 1 = .error .outOfFuel) ∧
      (-2 ^ 63 < (1 : Int) → (1 : Int) < 2 →
        GenerateKeys collidingSource 1000 1 = .error .outOfFuel) ∧
      ((1 : Int) = -2 ^ 63 → 1 ≤ 1000 →
        (collidingSource 2 (2 ^ 63 - 1) = none →
          GenerateKeys collidingSource 1000 1 = .error .makeslice) ∧
        (∀ r : Int, collidingSource 2 (2 ^ 63 - 1) = some r →
          GenerateKeys collidingSource 1000 1 = .error .nilDereference)) :=
  failure_yields_no_key collidingSource 1 1000 (Or.inl (by decide))

/-! ## The scans against the modular inverse, and their bounds (C14, C15, C17) -/

/-- For `phi > 1` and `e` coprime with `phi`, `modularInverse e phi` lies in
`[0, phi)` and is an inverse of `e` modulo `phi`. -/
theorem modularInverse_spec (e phi : Int) (hphi : 1 < phi) (hcop : Int.gcd e phi = 1) :
    0 ≤ modularInverse e phi ∧ modularInverse e phi < phi ∧
      (modularInverse e phi * e) % phi = 1 := by
  have hpos : 0 < phi := by omega
  refine ⟨Int.emod_nonneg _ (ne_of_gt hpos), Int.emod_lt_of_pos _ hpos, ?_⟩
  have hbez := Int.gcd_eq_gcd_ab e phi
  rw [hcop] at hbez
  have h1 : modularInverse e phi * e ≡ Int.gcdA e phi * e [ZMOD phi] :=
    (Int.mod_modEq _ _).mul_right _
  have h2 : Int.gcdA e phi * e ≡ 1 [ZMOD phi] := by
    rw [Int.modEq_iff_dvd]
    refine ⟨Int.gcdB e phi, ?_⟩
    push_cast at hbez
    linarith
  have h3 := h1.trans h2
  unfold Int.ModEq at h3
  rw [h3]
  exact Int.emod_eq_of_lt (by norm_num) hphi

/-- Two inverses of `e` modulo `phi` that are both below `phi` are equal. -/
theorem inverse_unique (phi e a b : Nat) (hcop : Nat.gcd e phi = 1) (ha : a < phi)
    (hb : b < phi) (hae : (a * e) % phi = 1) (hbe : (b * e) % phi = 1) : a = b := by
  have hmod : a * e ≡ b * e [MOD phi] := hae.trans hbe.symm
  have hcop' : Nat.gcd phi e = 1 := by rw [Nat.gcd_comm]; exact hcop
  have h := Nat.ModEq.cancel_right_of_coprime hcop' hmod
  unfold Nat.ModEq at h
  rwa [Nat.mod_eq_of_lt ha, Nat.mod_eq_of_lt hb] at h

/-- For `phi > 2` the exponents that the scans find are below `phi`: the scan
for `e` stops at `phi - 1` at the latest, and the scan for `d` stops at the
inverse of `e` in `[2, phi)`. -/
theorem scans_below_phi (phi e d : Nat) (hphi : 2 < phi)
    (he2 : 2 ≤ e) (heg : Nat.gcd e phi = 1)
    (hemin : ∀ k : Nat, 2 ≤ k → k < e → Nat.gcd k phi ≠ 1)
    (hdm : (d * e) % phi = 1) (hdmin : ∀ k : Nat, 2 ≤ k → k < d → (k * e) % phi ≠ 1) :
    e < phi ∧ d < phi ∧ (d : Int) = modularInverse (e : Int) (phi : Int) := by
  have he : e < phi := by
    by_contra h
    have hg : Nat.gcd (phi - 1) phi = 1 := by
      have h1 : Nat.gcd (phi - 1) (phi - 1 + 1) = 1 := by simp
      rwa [Nat.sub_add_cancel (by omega)] at h1
    exact hemin (phi - 1) (by omega) (by omega) hg
  have hcopI : Int.gcd (e : Int) (phi : Int) = 1 := by
    rw [Int.gcd_natCast_natCast]; exact heg
  obtain ⟨h0, hlt, hinv⟩ := modularInverse_spec (e : Int) (phi : Int) (by omega) hcopI
  obtain ⟨d0, hd0⟩ := Int.eq_ofNat_of_zero_le h0
  rw [hd0] at hlt hinv
  have hlt' : d0 < phi := by exact_mod_cast hlt
  have hinv' : (d0 * e) % phi = 1 := by exact_mod_cast hinv
  have hd0ge : 2 ≤ d0 := by
    rcases Nat.lt_or_ge d0 2 with h | h
    · exfalso
      have h01 : d0 = 0 ∨ d0 = 1 := by omega
      rcases h01 with h | h
      · subst h
        rw [Nat.zero_mul, Nat.zero_mod] at hinv'
        exact absurd hinv' (by norm_num)
      · subst h
        rw [Nat.one_mul, Nat.mod_eq_of_lt he] at hinv'
        omega
    · exact h
  have hdle : d ≤ d0 := by
    by_contra h
    exact hdmin d0 hd0ge (by omega) hinv'
  have hdlt : d < phi := lt_of_le_of_lt hdle hlt'
  have heq : d = d0 := inverse_unique phi e d d0 heg hdlt hlt' hdm hinv'
  refine ⟨he, hdlt, ?_⟩
  rw [hd0, heq]

/-- The totient of a product of two distinct primes is even. -/
theorem two_dvd_phi (p q : Nat) (hp : p.Prime) (hq : q.Prime) (hpq : p ≠ q) :
    2 ∣ (p - 1) * (q - 1) := by
  have h2p := hp.two_le
  have h2q := hq.two_le
  rcases hp.eq_two_or_odd with h | h
  · rcases hq.eq_two_or_odd with h' | h'
    · exact absurd (h.trans h'.symm) hpq
    · exact Dvd.dvd.mul_left (by omega) _
  · exact Dvd.dvd.mul_right (by omega) _

/-- The smallest integer `e ≥ 2` coprime with `phi` is a prime. -/
theorem least_coprime_prime (phi e : Nat) (he2 : 2 ≤ e) (heg : Nat.gcd e phi = 1)
    (hemin : ∀ k : Nat, 2 ≤ k → k < e → Nat.gcd k phi ≠ 1) : e.Prime := by
  have hne : e ≠ 1 := by omega
  have hmp := Nat.minFac_prime hne
  have hdvd := Nat.minFac_dvd e
  have hcop : Nat.gcd e.minFac phi = 1 :=
    Nat.Coprime.coprime_dvd_left hdvd heg
  have hle : e.minFac ≤ e := Nat.minFac_le (by omega)
  rcases Nat.eq_or_lt_of_le hle with h | h
  · rw [← h]; exact hmp
  · exact absurd hcop (hemin _ hmp.two_le h)

/-- The cast of the totient: `(p - 1) * (q - 1)` over `Int` is the cast of the
natural number. -/
theorem phi_cast (p q : Nat) (hp : 1 ≤ p) (hq : 1 ≤ q) :
    ((p : Int) - 1) * ((q : Int) - 1) = (((p - 1) * (q - 1) : Nat) : Int) := by
  push_cast [Nat.cast_sub hp, Nat.cast_sub hq]
  ring

/-- C14. The scanned private exponent against the modular inverse: for distinct
primes `p`, `q` and enough fuel, when `phi = (p-1)*(q-1) > 2` the `d` that
`deriveKeys` returns is `modularInverse e phi`, lies strictly between 1 and
`phi`, is an inverse of `e` modulo `phi`, and is the only one in `[1, phi)`;
when `phi = 2` the primes are 2 and 3, `e = 3`, the inverse in `[1, phi)` is 1
and the scan returns 3. -/
theorem private_exponent_is_inverse (p q : Nat) (hp : p.Prime) (hq : q.Prime) (hpq : p ≠ q)
    (fuel : Nat) (hfuel : (p - 1) * (q - 1) ≤ fuel) :
    ∃ e d : Int, deriveKeys fuel (p : Int) (q : Int) = .ok (e, d, (p : Int) * q) ∧
      (2 < (p - 1) * (q - 1) →
        d = modularInverse e (((p : Int) - 1) * ((q : Int) - 1)) ∧
        1 < d ∧ d < ((p : Int) - 1) * ((q : Int) - 1) ∧
        (d * e) % (((p : Int) - 1) * ((q : Int) - 1)) = 1 ∧
        ∀ d' : Int, 1 ≤ d' → d' < ((p : Int) - 1) * ((q : Int) - 1) →
          (d' * e) % (((p : Int) - 1) * ((q : Int) - 1)) = 1 → d' = d) ∧
      ((p - 1) * (q - 1) = 2 →
        ((p = 2 ∧ q = 3) ∨ (p = 3 ∧ q = 2)) ∧ e = 3 ∧ d = 3 ∧
        modularInverse e (((p : Int) - 1) * ((q : Int) - 1)) = 1) := by
  obtain ⟨e, d, hk, ⟨he2, hele, heg, hemin⟩, ⟨hd2, hdle, hdm, hdmin⟩⟩ :=
    deriveKeys_spec p q hp.one_le hq.one_le (two_le_phi p q hp hq hpq) fuel hfuel
  have hcast := phi_cast p q hp.one_le hq.one_le
  refine ⟨e, d, hk, ?_, ?_⟩
  · intro hphi
    obtain ⟨-, hdlt, hinv⟩ := scans_below_phi _ e d hphi he2 heg hemin hdm hdmin
    rw [hcast]
    refine ⟨hinv, by exact_mod_cast hd2, by exact_mod_cast hdlt, by exact_mod_cast hdm, ?_⟩
    intro d' h1 hlt hd'
    obtain ⟨k, rfl⟩ := Int.eq_ofNat_of_zero_le (by omega : (0 : Int) ≤ d')
    have hk1 : k < (p - 1) * (q - 1) := by exact_mod_cast hlt
    have hk2 : (k * e) % ((p - 1) * (q - 1)) = 1 := by exact_mod_cast hd'
    have := inverse_unique _ e k d heg hk1 hdlt hk2 hdm
    exact_mod_cast this
  · intro hphi
    have h2p := hp.two_le
    have h2q := hq.two_le
    have hpq23 : (p = 2 ∧ q = 3) ∨ (p = 3 ∧ q = 2) := by
      have hdvd : p - 1 ∣ 2 := ⟨q - 1, hphi.symm⟩
      have hle := Nat.le_of_dvd (by norm_num) hdvd
      have hp' : p = 2 ∨ p = 3 := by omega
      rcases hp' with h | h
      · subst h
        left
        exact ⟨rfl, by omega⟩
      · subst h
        right
        exact ⟨rfl, by omega⟩
    rw [hphi] at hele heg hdle hdm
    have he3 : e = 3 := by
      interval_cases e
      · exact absurd heg (by decide)
      · rfl
    subst he3
    have hd3 : d = 3 := by
      interval_cases d
      · exact absurd hdm (by decide)
      · rfl
    subst hd3
    refine ⟨hpq23, rfl, rfl, ?_⟩
    rw [hcast, hphi]
    simp only [Nat.cast_ofNat]
    obtain ⟨h0, hlt, hinv⟩ := modularInverse_spec 3 2 (by norm_num) (by decide)
    have h01 : modularInverse 3 2 = 0 ∨ modularInverse 3 2 = 1 := by omega
    rcases h01 with h | h
    · rw [h] at hinv
      exact absurd hinv (by decide)
    · exact h

/-- C14 at `p = 13`, `q = 7`, fuel 72: `phi = 72`, `e = 5`, and `d = 29` is the
inverse of 5 modulo 72. -/
theorem private_exponent_is_inverse_witness :
    ∃ e d : Int, deriveKeys 72 ((13 : Nat) : Int) ((7 : Nat) : Int)
        = .ok (e, d, ((13 : Nat) : Int) * (7 : Nat)) ∧
      (2 < (13 - 1) * (7 - 1) →
        d = modularInverse e ((((13 : Nat) : Int) - 1) * (((7 : Nat) : Int) - 1)) ∧
        1 < d ∧ d < (((13 : Nat) : Int) - 1) * (((7 : Nat) : Int) - 1) ∧
        (d * e) % ((((13 : Nat) : Int) - 1) * (((7 : Nat) : Int) - 1)) = 1 ∧
        ∀ d' : Int, 1 ≤ d' → d' < (((13 : Nat) : Int) - 1) * (((7 : Nat) : Int) - 1) →
          (d' * e) % ((((13 : Nat) : Int) - 1) * (((7 : Nat) : Int) - 1)) = 1 → d' = d) ∧
      ((13 - 1) * (7 - 1) = 2 →
        (((13 : Nat) = 2 ∧ (7 : Nat) = 3) ∨ ((13 : Nat) = 3 ∧ (7 : Nat) = 2)) ∧ e = 3 ∧ d = 3 ∧
        modularInverse e ((((13 : Nat) : Int) - 1) * (((7 : Nat) : Int) - 1)) = 1) :=
  private_exponent_is_inverse 13 7 (by norm_num) (by norm_num) (by decide) 72 (by decide)

/-- C15. Both scans terminate: for distinct primes `p`, `q`, `phi = (p-1)*(q-1)`
and every fuel of at least `phi`, `deriveKeys` returns a triple
`(e, d, p * q)`; the scan for `e` stops at some `2 ≤ e ≤ phi + 1` and the scan
for `d` stops at some `2 ≤ d ≤ phi + 1`. -/
theorem scans_terminate (p q : Nat) (hp : p.Prime) (hq : q.Prime) (hpq : p ≠ q)
    (fuel : Nat) (hfuel : (p - 1) * (q - 1) ≤ fuel) :
    ∃ e d : Int, deriveKeys fuel (p : Int) (q : Int) = .ok (e, d, (p : Int) * q) ∧
      2 ≤ e ∧ e ≤ ((p : Int) - 1) * ((q : Int) - 1) + 1 ∧
      2 ≤ d ∧ d ≤ ((p : Int) - 1) * ((q : Int) - 1) + 1 := by
  obtain ⟨e, d, hk, ⟨he2, hele, -, -⟩, ⟨hd2, hdle, -, -⟩⟩ :=
    deriveKeys_spec p q hp.one_le hq.one_le (two_le_phi p q hp hq hpq) fuel hfuel
  rw [phi_cast p q hp.one_le hq.one_le]
  exact ⟨e, d, hk, by exact_mod_cast he2, by exact_mod_cast hele, by exact_mod_cast hd2,
    by exact_mod_cast hdle⟩

/-- C15 at `p = 2`, `q = 3`, fuel 2: `phi = 2` and both scans stop at
`3 = phi + 1`. -/
theorem scans_terminate_witness :
    ∃ e d : Int, deriveKeys 2 ((2 : Nat) : Int) ((3 : Nat) : Int)
        = .ok (e, d, ((2 : Nat) : Int) * (3 : Nat)) ∧
      2 ≤ e ∧ e ≤ (((2 : Nat) : Int) - 1) * (((3 : Nat) : Int) - 1) + 1 ∧
      2 ≤ d ∧ d ≤ (((2 : Nat) : Int) - 1) * (((3 : Nat) : Int) - 1) + 1 :=
  scans_terminate 2 3 (by norm_num) (by norm_num) (by decide) 2 (by decide)

/-- C17. The public exponent is an odd prime: for distinct primes `p`, `q` and
enough fuel, the `e` that `deriveKeys` returns is a prime number, is odd, and
is at least 3. -/
theorem public_exponent_odd_prime (p q : Nat) (hp : p.Prime) (hq : q.Prime) (hpq : p ≠ q)
    (fuel : Nat) (hfuel : (p - 1) * (q - 1) ≤ fuel) :
    ∃ e d : Int, deriveKeys fuel (p : Int) (q : Int) = .ok (e, d, (p : Int) * q) ∧
      Nat.Prime e.toNat ∧ 3 ≤ e ∧ e % 2 = 1 := by
  obtain ⟨e, d, hk, ⟨he2, -, heg, hemin⟩, -⟩ :=
    deriveKeys_spec p q hp.one_le hq.one_le (two_le_phi p q hp hq hpq) fuel hfuel
  have hprime := least_coprime_prime _ e he2 heg hemin
  have hne2 : e ≠ 2 := by
    rintro rfl
    have h2 : 2 ∣ Nat.gcd 2 ((p - 1) * (q - 1)) :=
      Nat.dvd_gcd (dvd_refl 2) (two_dvd_phi p q hp hq hpq)
    rw [heg] at h2
    exact absurd h2 (by decide)
  have hodd : e % 2 = 1 := hprime.eq_two_or_odd.resolve_left hne2
  refine ⟨e, d, hk, by simpa using hprime, ?_, ?_⟩
  · have : 3 ≤ e := by omega
    exact_mod_cast this
  · exact_mod_cast hodd

/-- C17 at `p = 7`, `q = 11`, fuel 60: `phi = 60` and `e = 7`. -/
theorem public_exponent_odd_prime_witness :
    ∃ e d : Int, deriveKeys 60 ((7 : Nat) : Int) ((11 : Nat) : Int)
        = .ok (e, d, ((7 : Nat) : Int) * (11 : Nat)) ∧
      Nat.Prime e.toNat ∧ 3 ≤ e ∧ e % 2 = 1 :=
  public_exponent_odd_prime 7 11 (by norm_num) (by norm_num) (by decide) 60 (by decide)

/-! ## The reverse round trip (C18) and the message round trip in full (C16) -/

/-- The reverse integer round trip for natural exponents and modulus:
`Encrypt` after `Decrypt` returns every `y` in `[0, p * q)`. -/
theorem encrypt_decrypt (p q e d : Nat) (hp : p.Prime) (hq : q.Prime) (hpq : p ≠ q)
    (hed : (d * e) % ((p - 1) * (q - 1)) = 1) (y : Int) (h0 : 0 ≤ y)
    (hy : y < (p : Int) * q) :
    ((NewRSA e d ((p : Int) * q)).Decrypt y).bind (NewRSA e d ((p : Int) * q)).Encrypt
      = some y := by
  have hn : (0 : Int) < (p : Int) * q := lt_of_le_of_lt h0 hy
  obtain ⟨y', rfl⟩ := Int.eq_ofNat_of_zero_le h0
  simp only [RSA.Encrypt, RSA.Decrypt, NewRSA]
  rw [Exp_eq _ _ _ (Int.natCast_nonneg d) hn, Option.some_bind,
    Exp_eq _ _ _ (Int.natCast_nonneg e) hn]
  simp only [Int.toNat_ofNat]
  have h := pow_pow_mod p q d e hp hq hpq (by rw [Nat.mul_comm]; exact hed) y'
  have hlt : y' < p * q := by exact_mod_cast hy
  rw [Nat.mod_eq_of_lt hlt] at h
  congr 1
  exact_mod_cast h

/-- C18. Reverse round trip: for distinct primes `p`, `q` and enough fuel,
`deriveKeys` returns a key `(e, d, n)` with `n = p * q` for which `Encrypt` and
`Decrypt` are the power residues `x ^ e mod n` and `y ^ d mod n`; for every
`y` in `[0, n)`, `Encrypt` of `Decrypt y` is `y`, for every `x` in `[0, n)`,
`Decrypt` of `Encrypt x` is `x`, and the two maps are mutually inverse
bijections of `[0, n)`. -/
theorem reverse_round_trip (p q : Nat) (hp : p.Prime) (hq : q.Prime) (hpq : p ≠ q)
    (fuel : Nat) (hfuel : (p - 1) * (q - 1) ≤ fuel) :
    ∃ e d : Int, deriveKeys fuel (p : Int) (q : Int) = .ok (e, d, (p : Int) * q) ∧
      (∀ x : Int, (NewRSA e d ((p : Int) * q)).Encrypt x
        = some (x ^ e.toNat % ((p : Int) * q))) ∧
      (∀ y : Int, (NewRSA e d ((p : Int) * q)).Decrypt y
        = some (y ^ d.toNat % ((p : Int) * q))) ∧
      (∀ y : Int, 0 ≤ y → y < (p : Int) * q →
        ((NewRSA e d ((p : Int) * q)).Decrypt y).bind (NewRSA e d ((p : Int) * q)).Encrypt
          = some y) ∧
      (∀ x : Int, 0 ≤ x → x < (p : Int) * q →
        ((NewRSA e d ((p : Int) * q)).Encrypt x).bind (NewRSA e d ((p : Int) * q)).Decrypt
          = some x) ∧
      Set.BijOn (fun x : Int => x ^ e.toNat % ((p : Int) * q))
        (Set.Ico 0 ((p : Int) * q)) (Set.Ico 0 ((p : Int) * q)) ∧
      Set.BijOn (fun y : Int => y ^ d.toNat % ((p : Int) * q))
        (Set.Ico 0 ((p : Int) * q)) (Set.Ico 0 ((p : Int) * q)) ∧
      Set.InvOn (fun y : Int => y ^ d.toNat % ((p : Int) * q))
        (fun x : Int => x ^ e.toNat % ((p : Int) * q))
        (Set.Ico 0 ((p : Int) * q)) (Set.Ico 0 ((p : Int) * q)) := by
  obtain ⟨e, d, hk, -, -, -, hed, -⟩ :=
    deriveKeys_spec p q hp.one_le hq.one_le (two_le_phi p q hp hq hpq) fuel hfuel
  have hn : (0 : Int) < (p : Int) * q := by
    have := hp.pos
    have := hq.pos
    positivity
  have henc : ∀ x : Int, (NewRSA e d ((p : Int) * q)).Encrypt x
      = some (x ^ (e : Int).toNat % ((p : Int) * q)) :=
    fun x => Exp_eq _ _ _ (Int.natCast_nonneg e) hn
  have hdec : ∀ y : Int, (NewRSA e d ((p : Int) * q)).Decrypt y
      = some (y ^ (d : Int).toNat % ((p : Int) * q)) :=
    fun y => Exp_eq _ _ _ (Int.natCast_nonneg d) hn
  have hED : ∀ y : Int, 0 ≤ y → y < (p : Int) * q →
      ((NewRSA e d ((p : Int) * q)).Decrypt y).bind (NewRSA e d ((p : Int) * q)).Encrypt
        = some y :=
    fun y h0 hy => encrypt_decrypt p q e d hp hq hpq hed y h0 hy
  have hDE : ∀ x : Int, 0 ≤ x → x < (p : Int) * q →
      ((NewRSA e d ((p : Int) * q)).Encrypt x).bind (NewRSA e d ((p : Int) * q)).Decrypt
        = some x :=
    fun x h0 hx => decrypt_encrypt p q e d hp hq hpq hed x h0 hx
  have hmapsE : Set.MapsTo (fun x : Int => x ^ (e : Int).toNat % ((p : Int) * q))
      (Set.Ico 0 ((p : Int) * q)) (Set.Ico 0 ((p : Int) * q)) :=
    fun x _ => ⟨Int.emod_nonneg _ (ne_of_gt hn), Int.emod_lt_of_pos _ hn⟩
  have hmapsD : Set.MapsTo (fun y : Int => y ^ (d : Int).toNat % ((p : Int) * q))
      (Set.Ico 0 ((p : Int) * q)) (Set.Ico 0 ((p : Int) * q)) :=
    fun y _ => ⟨Int.emod_nonneg _ (ne_of_gt hn), Int.emod_lt_of_pos _ hn⟩
  have hinv : Set.InvOn (fun y : Int => y ^ (d : Int).toNat % ((p : Int) * q))
      (fun x : Int => x ^ (e : Int).toNat % ((p : Int) * q))
      (Set.Ico 0 ((p : Int) * q)) (Set.Ico 0 ((p : Int) * q)) := by
    constructor
    · intro x hx
      have h := hDE x hx.1 hx.2
      rw [henc, Option.some_bind, hdec] at h
      exact Option.some.inj h
    · intro y hy
      have h := hED y hy.1 hy.2
      rw [hdec, Option.some_bind, henc] at h
      exact Option.some.inj h
  exact ⟨e, d, hk, henc, hdec, hED, hDE, hinv.bijOn hmapsE hmapsD,
    hinv.symm.bijOn hmapsD hmapsE, hinv⟩

/-- C18 at `p = 3`, `q = 5`, fuel 8: the key is `(3, 3, 15)`. -/
theorem reverse_round_trip_witness :
    ∃ e d : Int, deriveKeys 8 ((3 : Nat) : Int) ((5 : Nat) : Int)
        = .ok (e, d, ((3 : Nat) : Int) * (5 : Nat)) ∧
      (∀ x : Int, (NewRSA e d (((3 : Nat) : Int) * (5 : Nat))).Encrypt x
        = some (x ^ e.toNat % (((3 : Nat) : Int) * (5 : Nat)))) ∧
      (∀ y : Int, (NewRSA e d (((3 : Nat) : Int) * (5 : Nat))).Decrypt y
        = some (y ^ d.toNat % (((3 : Nat) : Int) * (5 : Nat)))) ∧
      (∀ y : Int, 0 ≤ y → y < ((3 : Nat) : Int) * (5 : Nat) →
        ((NewRSA e d (((3 : Nat) : Int) * (5 : Nat))).Decrypt y).bind
          (NewRSA e d (((3 : Nat) : Int) * (5 : Nat))).Encrypt = some y) ∧
      (∀ x : Int, 0 ≤ x → x < ((3 : Nat) : Int) * (5 : Nat) →
        ((NewRSA e d (((3 : Nat) : Int) * (5 : Nat))).Encrypt x).bind
          (NewRSA e d (((3 : Nat) : Int) * (5 : Nat))).Decrypt = some x) ∧
      Set.BijOn (fun x : Int => x ^ e.toNat % (((3 : Nat) : Int) * (5 : Nat)))
        (Set.Ico 0 (((3 : Nat) : Int) * (5 : Nat)))
        (Set.Ico 0 (((3 : Nat) : Int) * (5 : Nat))) ∧
      Set.BijOn (fun y : Int => y ^ d.toNat % (((3 : Nat) : Int) * (5 : Nat)))
        (Set.Ico 0 (((3 : Nat) : Int) * (5 : Nat)))
        (Set.Ico 0 (((3 : Nat) : Int) * (5 : Nat))) ∧
      Set.InvOn (fun y : Int => y ^ d.toNat % (((3 : Nat) : Int) * (5 : Nat)))
        (fun x : Int => x ^ e.toNat % (((3 : Nat) : Int) * (5 : Nat)))
        (Set.Ico 0 (((3 : Nat) : Int) * (5 : Nat)))
        (Set.Ico 0 (((3 : Nat) : Int) * (5 : Nat))) :=
  reverse_round_trip 3 5 (by norm_num) (by norm_num) (by decide) 8 (by decide)

/-- C16. Message round trip under its precondition: for distinct primes `p`,
`q` with `n = p * q ≤ 2^63` and enough fuel, `deriveKeys` returns a key
`(e, d, n)` such that `DecryptMessage` of `EncryptMessage m` is `m` for every
message `m` whose bytes are all below `n`, so for every message when
`n ≥ 256`; and when `n ≤ 255` there is a one-byte message, the byte `n`, which
the round trip does not return. -/
theorem message_round_trip_precondition (p q : Nat) (hp : p.Prime) (hq : q.Prime)
    (hpq : p ≠ q) (hn : (p : Int) * q ≤ 2 ^ 63) (fuel : Nat)
    (hfuel : (p - 1) * (q - 1) ≤ fuel) :
    ∃ e d : Int, deriveKeys fuel (p : Int) (q : Int) = .ok (e, d, (p : Int) * q) ∧
      (∀ m : List (Fin 256), (∀ b ∈ m, (b.val : Int) < (p : Int) * q) →
        ((NewRSA e d ((p : Int) * q)).EncryptMessage m).bind
          (NewRSA e d ((p : Int) * q)).DecryptMessage = .ok m) ∧
      (256 ≤ p * q → ∀ m : List (Fin 256),
        ((NewRSA e d ((p : Int) * q)).EncryptMessage m).bind
          (NewRSA e d ((p : Int) * q)).DecryptMessage = .ok m) ∧
      (p * q ≤ 255 → ∃ b : Fin 256,
        ((NewRSA e d ((p : Int) * q)).EncryptMessage [b]).bind
          (NewRSA e d ((p : Int) * q)).DecryptMessage ≠ .ok [b]) := by
  obtain ⟨e, d, hk, ⟨he2, -, -, -⟩, ⟨hd2, -, hed, -⟩⟩ :=
    deriveKeys_spec p q hp.one_le hq.one_le (two_le_phi p q hp hq hpq) fuel hfuel
  have hrt : ∀ m : List (Fin 256), (∀ b ∈ m, (b.val : Int) < (p : Int) * q) →
      ((NewRSA e d ((p : Int) * q)).EncryptMessage m).bind
        (NewRSA e d ((p : Int) * q)).DecryptMessage = .ok m := by
    intro m hm
    obtain ⟨cs, hcs, -, -, hdec⟩ := message_round_trip p q e d hp hq hpq hed hn m hm
    rw [hcs]
    exact hdec
  refine ⟨e, d, hk, hrt, ?_, ?_⟩
  · intro h256 m
    apply hrt
    intro b _
    have hb := b.isLt
    have : (b.val : Int) < ((p * q : Nat) : Int) := by
      exact_mod_cast lt_of_lt_of_le hb h256
    simpa using this
  · intro h255
    have hpos : 0 < p * q := Nat.mul_pos hp.pos hq.pos
    have hposI : (0 : Int) < (p : Int) * q := by exact_mod_cast hpos
    refine ⟨⟨p * q, by omega⟩, ?_⟩
    have hbval : (((⟨p * q, by omega⟩ : Fin 256).val : Nat) : Int) = (p : Int) * q := by
      push_cast
      rfl
    have henc : ((p : Int) * q) ^ e % ((p : Int) * q) = 0 :=
      Int.emod_eq_zero_of_dvd (dvd_pow_self _ (by omega))
    have hdec : (0 : Int) ^ d % ((p : Int) * q) = 0 := by
      rw [zero_pow (by omega)]
      simp
    have h64 : Int64 0 = 0 := by decide
    have hE := EncryptMessage_eq (NewRSA e d ((p : Int) * q)) (Int.natCast_nonneg e) hposI
      [⟨p * q, by omega⟩]
    have hD := DecryptMessage_eq (NewRSA e d ((p : Int) * q)) (Int.natCast_nonneg d) hposI [0]
    simp only [NewRSA, List.map_cons, List.map_nil, Int.toNat_ofNat, hbval, henc, h64,
      hdec] at hE hD
    simp only [NewRSA]
    rw [hE]
    show RSA.DecryptMessage _ [0] ≠ _
    rw [hD]
    intro hcontra
    have h1 : byteOf 0 = (⟨p * q, by omega⟩ : Fin 256) := by
      simpa using hcontra
    have hb0 : (byteOf 0).val = 0 := by decide
    have h2 : (byteOf 0).val = p * q := congrArg Fin.val h1
    rw [hb0] at h2
    omega

/-- C16 at `p = 13`, `q = 7`, fuel 72: the modulus is 91, below 256. -/
theorem message_round_trip_precondition_witness :
    ∃ e d : Int, deriveKeys 72 ((13 : Nat) : Int) ((7 : Nat) : Int)
        = .ok (e, d, ((13 : Nat) : Int) * (7 : Nat)) ∧
      (∀ m : List (Fin 256), (∀ b ∈ m, (b.val : Int) < ((13 : Nat) : Int) * (7 : Nat)) →
        ((NewRSA e d (((13 : Nat) : Int) * (7 : Nat))).EncryptMessage m).bind
          (NewRSA e d (((13 : Nat) : Int) * (7 : Nat))).DecryptMessage = .ok m) ∧
      (256 ≤ 13 * 7 → ∀ m : List (Fin 256),
        ((NewRSA e d (((13 : Nat) : Int) * (7 : Nat))).EncryptMessage m).bind
          (NewRSA e d (((13 : Nat) : Int) * (7 : Nat))).DecryptMessage = .ok m) ∧
      (13 * 7 ≤ 255 → ∃ b : Fin 256,
        ((NewRSA e d (((13 : Nat) : Int) * (7 : Nat))).EncryptMessage [b]).bind
          (NewRSA e d (((13 : Nat) : Int) * (7 : Nat))).DecryptMessage ≠ .ok [b]) :=
  message_round_trip_precondition 13 7 (by norm_num) (by norm_num) (by decide) (by norm_num)
    72 (by decide)

/-! ## Negative exponents (C7, C10) -/

/-- Two values of `Exp` with the exponent `-1` and the modulus 7: the base `-3`
gives 5 (the inverse 2 of `-3`, replaced by `7 - 2` because the base is
negative and the exponent odd), and the base `4 = -3 mod 7` gives 2. -/
theorem Exp_neg_one_seven : Exp (-3) (-1) 7 = some 5 ∧ Exp 4 (-1) 7 = some 2 := by
  obtain ⟨h0, hlt, hinv⟩ := modularInverse_spec (-3) 7 (by norm_num) (by decide)
  obtain ⟨h0', hlt', hinv'⟩ := modularInverse_spec 4 7 (by norm_num) (by decide)
  unfold modularInverse at h0 hlt hinv h0' hlt' hinv'
  have hv : Int.gcdA (-3) 7 % 7 = 2 := by omega
  have hv' : Int.gcdA 4 7 % 7 = 2 := by omega
  have habs : |(7 : Int)| = 7 := abs_of_pos (by norm_num)
  constructor
  · simp only [Exp, habs, hv]
    decide
  · simp only [Exp, habs, hv']
    decide

/-- C7 (as stated, refuted). With the key `(3, -1, 4)`, whose modulus is
positive, `Decrypt 2` is nil, because 2 has no inverse modulo 4, and
`DecryptMessage` of the one-element sequence 2 stops on a nil dereference
instead of returning a byte. With the key `(3, -1, 7)`, `DecryptMessage` of
the one-element sequence `-3` returns the byte 5, while the inverse of `-3`
modulo 7 is 2. -/
theorem decrypt_message_counterexample :
    (0 : Int) < 4 ∧ (NewRSA 3 (-1) 4).Decrypt 2 = none ∧
      (NewRSA 3 (-1) 4).DecryptMessage [2] = .error .nilDereference ∧
      (NewRSA 3 (-1) 7).DecryptMessage [-3] = .ok [5] ∧
      (2 * (-3) : Int) % 7 = 1 ∧ (5 * (-3) : Int) % 7 ≠ 1 := by
  refine ⟨by decide, by decide, by decide, ?_, by decide, by decide⟩
  have h : (NewRSA 3 (-1) 7).Decrypt (-3) = some 5 := Exp_neg_one_seven.1
  simp only [RSA.DecryptMessage, h]
  decide

/-- C10 (as stated, refuted). With the key `(-1, 3, 4)`, whose modulus is
positive, `Encrypt 2` is nil, because 2 has no inverse modulo 4. With the key
`(-1, 3, 7)`, `Encrypt (-3)` is 5 while `Encrypt` of `-3 mod 7 = 4` is 2. With
the key `(3, -1, 4)`, `Decrypt 2` is nil. -/
theorem out_of_range_counterexample :
    (0 : Int) < 4 ∧ (NewRSA (-1) 3 4).Encrypt 2 = none ∧
      (NewRSA (-1) 3 7).Encrypt (-3) = some 5 ∧
      (NewRSA (-1) 3 7).Encrypt ((-3) % (NewRSA (-1) 3 7).N) = some 2 ∧
      (NewRSA 3 (-1) 4).Decrypt 2 = none := by
  refine ⟨by decide, by decide, Exp_neg_one_seven.1, ?_, by decide⟩
  have h : (-3 : Int) % (NewRSA (-1) 3 7).N = 4 := by decide
  rw [h]
  exact Exp_neg_one_seven.2

end CryptoRSA
